import Mathlib

/-!
Verification of the formdata codec (src/mod.ts): a bidirectional codec between
nested structured values and flat bracket-notation key/value pairs.

The embedding follows the TypeScript source:
  * `encode` / `appendValue` flatten a nested object into a list of
    (path-key, string) pairs, skipping null/undefined values.
  * `decode` folds the pairs into a nested result, parsing each raw key with
    `split(/[\[\]]+/).filter(k => k.length)` and inserting with
    `setNestedValue`.

Modelling decisions, all taken from the source:
  * Scalars are strings.  FormData stores strings (numbers are coerced by
    FormData.append before they are seen again); binary blobs are opaque
    scalars that play no role in any claim and are omitted from the model.
  * JavaScript objects and arrays are both property containers keyed by
    strings; an array created by `current[key] = []` receives its elements
    through string keys "0", "1", ... exactly like object properties.  `DVal`
    therefore has a single container constructor `coll` carrying an isArray
    flag and an insertion-ordered association list of own data properties.
  * The guard `if (!current[key])` tests JavaScript falsiness of the full
    property read: an own property's value when one exists (the empty string
    is falsy, containers and non-empty strings are truthy), otherwise the
    inherited value from the prototype chain.  Plain objects inherit from
    Object.prototype and arrays from Array.prototype, so an own-absent key
    such as "constructor" or "push" reads a truthy host function and the
    walk descends into it, out of the result tree; an own-absent key not on
    the chain reads undefined (falsy).  `protoKeys` lists the standard
    string-keyed members of the two chains ("length" included for arrays,
    where it is an own numeric property of every array).
  * Assignment `current[key] = value` creates or overwrites an own data
    property (shadowing inherited data properties such as "toString"), with
    two exceptions modelled separately: "__proto__" is an inherited accessor
    whose setter silently ignores string values (a no-op, no own property is
    created and no error is raised), and "length" on an array coerces the
    value into a new array length or throws a RangeError.
  * Outcomes are tri-valued (`Res`): `ok` with the updated result tree,
    `throw` for the strict-mode TypeError raised by writing a property on a
    primitive string, and `unknown` where the walk escapes into host objects
    of the prototype chain (or resizes an array through "length"), whose
    further behavior — silent completion mutating host objects, or a later
    TypeError inside them — this model does not determine.  No claim's
    hypotheses reach the `unknown` region; it marks the model's boundary
    honestly instead of inventing behavior there.
-/

namespace FormDataCodec

/-- Structured values: the JSON-like inputs of `encode` (spec section 3).
`null` is the absent-marker (it covers both JavaScript null and undefined). -/
inductive SVal where
  | null : SVal
  | str : String → SVal
  | arr : List SVal → SVal
  | obj : List (String × SVal) → SVal

/-- Decoded JavaScript values built by `decode`: either a string scalar or a
property container.  The Bool is the isArray flag (`current[key] = []` vs
`current[key] = \x7b\x7d`); properties are an insertion-ordered association
list of string keys, which is how both JavaScript objects and the
string-keyed writes into arrays behave. -/
inductive DVal where
  | str : String → DVal
  | coll : Bool → List (String × DVal) → DVal

/-- Bracket characters, the delimiters of the key convention. -/
def isBracket (c : Char) : Bool :=
  c = '[' || c = ']'

/-- Test of the source regex `/^\d+$/`: one or more ASCII digits. -/
def isIndex (s : String) : Bool :=
  !(s == "") && s.data.all Char.isDigit

/-- Name segments (spec sections 3 and 4.2): a segment that is not an index.
Segments are produced by splitting on brackets, so a name is non-empty,
bracket-free and not all digits. -/
def isName (s : String) : Bool :=
  !(s == "") && s.data.all (fun c => !isBracket c) && !(s.data.all Char.isDigit)

/-- Helper of `splitRuns`: put `c` at the front of the segment being built. -/
def consHead (c : Char) : List (List Char) → List (List Char)
  | [] => [[c]]
  | s :: ss => (c :: s) :: ss

/-- Splitting on maximal runs of bracket characters, the behavior of the
source's `rawKey.split(/[\[\]]+/)`.  The flag records whether we are inside
a run of brackets (so that further brackets extend the run instead of
opening new empty segments). -/
def splitRuns (inRun : Bool) : List Char → List (List Char)
  | [] => [[]]
  | c :: cs =>
    if isBracket c then
      if inRun then splitRuns true cs else [] :: splitRuns true cs
    else
      consHead c (splitRuns false cs)

/-- Path parsing of the decoder, from the source line
`rawKey.split(/[\[\]]+/).filter((key) => key.length)`: split the raw key on
runs of brackets and keep the non-empty segments. -/
def parsePath (s : String) : List String :=
  ((splitRuns false s.data).filter (fun l => l ≠ [])).map List.asString

/-- Own-property read on a container's own data properties.  The full
JavaScript read `current[key]` falls back to the prototype chain when the
own property is absent; that fallback is handled in `stepChild` and in the
final-write cases of `setNestedValue`. -/
def lookupEntry : List (String × DVal) → String → Option DVal
  | [], _ => none
  | (k', v') :: rest, k => if k' = k then some v' else lookupEntry rest k

/-- Own data-property write: overwrite in place when the own key is present
(JavaScript keeps the original property position), append otherwise.  The
accessor interception of "__proto__" and the array "length" coercion are
handled in `setNestedValue` before this is reached. -/
def setEntry : List (String × DVal) → String → DVal → List (String × DVal)
  | [], k, v => [(k, v)]
  | (k', v') :: rest, k, v =>
    if k' = k then (k, v) :: rest else (k', v') :: setEntry rest k v

/-- JavaScript truthiness of a stored value: the empty string is falsy,
every other string and every container (including empty arrays and
objects) is truthy. -/
def truthy : DVal → Bool
  | .str s => !(s == "")
  | .coll _ _ => true

/-- String-keyed members of Object.prototype, inherited by every plain
object the decoder creates; "__proto__" is the one accessor among them. -/
def objProtoKeys : List String :=
  ["constructor", "hasOwnProperty", "isPrototypeOf", "propertyIsEnumerable",
   "toLocaleString", "toString", "valueOf", "__defineGetter__",
   "__defineSetter__", "__lookupGetter__", "__lookupSetter__", "__proto__"]

/-- String keys that read a non-undefined value on an own-absent array
property: the own numeric "length" property plus the string-keyed members
of Array.prototype and, through it, of Object.prototype. -/
def arrProtoKeys : List String :=
  objProtoKeys ++
  ["length", "at", "concat", "copyWithin", "entries", "every", "fill",
   "filter", "find", "findIndex", "findLast", "findLastIndex", "flat",
   "flatMap", "forEach", "includes", "indexOf", "join", "keys",
   "lastIndexOf", "map", "pop", "push", "reduce", "reduceRight", "reverse",
   "shift", "slice", "some", "sort", "splice", "toReversed", "toSorted",
   "toSpliced", "unshift", "values", "with"]

/-- Keys whose read on an own-absent container property hits the prototype
chain (or the array's own "length") instead of undefined, for a container
of the given kind. -/
def protoKeys (isArr : Bool) : List String :=
  if isArr then arrProtoKeys else objProtoKeys

/-- Object keys that do not collide with Object.prototype members. -/
def isPlainObjKey (k : String) : Bool :=
  !((protoKeys false).contains k)

/-- Fresh child container created at a non-final segment: an array when the
next segment is an index (`/^\d+$/.test(keys[i + 1])`), else an object. -/
def freshChild (nextKey : String) : DVal :=
  if isIndex nextKey then .coll true [] else .coll false []

/-- Outcome of a decoder operation.  `ok` carries the updated result tree;
`throw` is the strict-mode TypeError raised by writing a property on a
primitive string; `unknown` marks the walk escaping into host objects of
the prototype chain (or resizing an array through "length"), whose further
behavior the model does not determine. -/
inductive Res where
  | ok : DVal → Res
  | throw : Res
  | unknown : Res

/-- Mapping over a successful outcome, the errors passing through. -/
def Res.map (f : DVal → DVal) : Res → Res
  | .ok d => .ok (f d)
  | .throw => .throw
  | .unknown => .unknown

/-- Sequencing of decoder outcomes: an exception or an unmodelled escape
absorbs the rest. -/
def Res.bind : Res → (DVal → Res) → Res
  | .ok d, f => f d
  | .throw, _ => .throw
  | .unknown, _ => .unknown

/-- The result tree of a successful outcome. -/
def Res.toOption : Res → Option DVal
  | .ok d => some d
  | .throw => none
  | .unknown => none

/-- Child value the walk descends into at a non-final segment `k` (next
segment `k2`) of a container of kind `b`, per `if (!current[key])` and
`current = current[key]`: a truthy own value is kept; a falsy own value
(the empty string) is replaced by a fresh container assigned by
`current[key] = [] / \x7b\x7d`; an own-absent key reads the prototype
chain: a plain key reads undefined (falsy, fresh container), while a chain
key reads a truthy host value and the walk leaves the result tree
(`none`). -/
def stepChild (b : Bool) (es : List (String × DVal)) (k k2 : String) : Option DVal :=
  match lookupEntry es k with
  | some c => if truthy c then some c else some (freshChild k2)
  | none => if (protoKeys b).contains k then none else some (freshChild k2)

/-- Functional form of the source's `setNestedValue` loop.  The walk over
`keys` descends through (and creates) containers; at the final key it
writes the value as an own data property, shadowing inherited data
properties, except that an own-absent "__proto__" write is the inherited
accessor's silent no-op and a "length" write on an array coerces the array
length (unmodelled).  On a primitive string, a final write is the
strict-mode TypeError — except "__proto__", whose setter silently ignores
a primitive receiver — and a deeper walk inspects characters, "length" or
wrapper methods of the string, which the model does not determine. -/
def setNestedValue : DVal → List String → String → Res
  | target, [], _ => .ok target
  | .str s, [k], _ => if k == "__proto__" then .ok (.str s) else .throw
  | .str _, _ :: _ :: _, _ => .unknown
  | .coll b es, [k], v =>
    if b && (k == "length") then .unknown
    else if k == "__proto__" && (lookupEntry es k).isNone then .ok (.coll b es)
    else .ok (.coll b (setEntry es k (.str v)))
  | .coll b es, k :: k2 :: rest, v =>
    match stepChild b es k k2 with
    | none => .unknown
    | some child =>
      Res.map (fun c => .coll b (setEntry es k c)) (setNestedValue child (k2 :: rest) v)

/-- Decoder fold over the FormData entries, in iteration order, threading
the tri-valued outcome from a given starting outcome. -/
def decodeFromRes (r : Res) (pairs : List (String × String)) : Res :=
  pairs.foldl (fun r p => r.bind (fun s => setNestedValue s (parsePath p.1) p.2)) r

/-- Decoder fold starting from a given partial result tree. -/
def decodeFrom (s : DVal) (pairs : List (String × String)) : Res :=
  decodeFromRes (.ok s) pairs

/-- Decoder of src/mod.ts: start from the empty result object and insert
each (rawKey, value) entry along its parsed path. -/
def decode (pairs : List (String × String)) : Res :=
  decodeFrom (.coll false []) pairs

mutual
/-- Recursive flattening of the source's `appendValue`: skip null/undefined,
recurse key-extended into arrays and objects, emit one pair per scalar. -/
def appendValue (key : String) : SVal → List (String × String)
  | .null => []
  | .str s => [(key, s)]
  | .arr l => appendArr key 0 l
  | .obj l => appendObj key l

/-- Array branch of `appendValue`: `value.forEach((item, index) => ...)`,
with keys extended by the decimal index. -/
def appendArr (key : String) (i : Nat) : List SVal → List (String × String)
  | [] => []
  | x :: xs => appendValue (key ++ "[" ++ Nat.repr i ++ "]") x ++ appendArr key (i + 1) xs

/-- Object branch of `appendValue`: iterate the own properties in order,
with keys extended by the property key. -/
def appendObj (key : String) : List (String × SVal) → List (String × String)
  | [] => []
  | (k, x) :: xs => appendValue (key ++ "[" ++ k ++ "]") x ++ appendObj key xs
end

/-- Encoder of src/mod.ts: the top-level keys appear bare, nested structure
is flattened by `appendValue`.  The top-level object's own properties are
iterated in order. -/
def encode (data : List (String × SVal)) : List (String × String) :=
  (data.map (fun p => appendValue p.1 p.2)).flatten

/-! Specification-side observation functions.  These are not part of the
source; they state properties of the code in the claims' vocabulary. -/

/-- Well-formed segment: non-empty and free of bracket characters, the shape
every parsed segment has.  Names and indices are both segments. -/
def isSeg (s : String) : Bool :=
  !(s == "") && s.data.all (fun c => !isBracket c)

/-- Path-key built the way `appendValue` builds its keys: the base key
followed by one bracketed group per further segment. -/
def extendKey (key : String) (q : List String) : String :=
  q.foldl (fun a s => a ++ "[" ++ s ++ "]") key

/-- Read-back of a segment path from a decoded value: follow the properties
named by the path. -/
def getPath : DVal → List String → Option DVal
  | v, [] => some v
  | .str _, _ :: _ => none
  | .coll _ es, k :: rest =>
    match lookupEntry es k with
    | none => none
    | some c => getPath c rest

mutual
/-- Pairs of `appendValue`, with the key given as a segment path relative to
the base key rather than as a flat string.  Mirrors `appendValue` exactly. -/
def pathPairs : SVal → List (List String × String)
  | .null => []
  | .str s => [([], s)]
  | .arr l => pathArr 0 l
  | .obj l => pathObj l

/-- Array branch of `pathPairs`, indices counted from `i`. -/
def pathArr (i : Nat) : List SVal → List (List String × String)
  | [] => []
  | x :: xs =>
    (pathPairs x).map (fun p => (Nat.repr i :: p.1, p.2)) ++ pathArr (i + 1) xs

/-- Object branch of `pathPairs`. -/
def pathObj : List (String × SVal) → List (List String × String)
  | [] => []
  | (k, x) :: xs =>
    (pathPairs x).map (fun p => (k :: p.1, p.2)) ++ pathObj xs
end

mutual
/-- Normalization of the round-trip claim (spec section 8): the value a
structured value becomes after decoding its own encoding.  Absent-markers
and containers whose every entry vanishes produce no pairs and are dropped
(`none`); arrays are represented by their decimal index keys, which is the
form array writes take in the decoded result. -/
def normalize : SVal → Option DVal
  | .null => none
  | .str s => some (.str s)
  | .arr l =>
    match normalizeArr 0 l with
    | [] => none
    | es => some (.coll true es)
  | .obj l =>
    match normalizeObj l with
    | [] => none
    | es => some (.coll false es)

/-- Array entries surviving normalization, keyed by decimal index. -/
def normalizeArr (i : Nat) : List SVal → List (String × DVal)
  | [] => []
  | x :: xs =>
    match normalize x with
    | none => normalizeArr (i + 1) xs
    | some d => (Nat.repr i, d) :: normalizeArr (i + 1) xs

/-- Object entries surviving normalization. -/
def normalizeObj : List (String × SVal) → List (String × DVal)
  | [] => []
  | (k, x) :: xs =>
    match normalize x with
    | none => normalizeObj xs
    | some d => (k, d) :: normalizeObj xs
end

/-- Keys pairwise distinct, the invariant JavaScript objects provide. -/
def nodupKeys : List String → Bool
  | [] => true
  | k :: ks => !(ks.contains k) && nodupKeys ks

mutual
/-- Hypotheses of the round-trip claim on a structured value: no
absent-markers anywhere, and every object key is a name (non-empty,
bracket-free, not all digits) that carries no inherited meaning on
Object.prototype; object keys are pairwise distinct as JavaScript objects
guarantee. -/
def wfVal : SVal → Bool
  | .null => false
  | .str _ => true
  | .arr l => wfArr l
  | .obj l => nodupKeys (l.map Prod.fst) && wfObj l

/-- List form of `wfVal` for array elements. -/
def wfArr : List SVal → Bool
  | [] => true
  | x :: xs => wfVal x && wfArr xs

/-- List form of `wfVal` for object entries. -/
def wfObj : List (String × SVal) → Bool
  | [] => true
  | (k, x) :: xs => isName k && isPlainObjKey k && wfVal x && wfObj xs
end

mutual
/-- Values of the scalar leaves of a structured value, in depth-first
pre-order; an absent-marker contributes nothing. -/
def leafValues : SVal → List String
  | .null => []
  | .str s => [s]
  | .arr l => leafArr l
  | .obj l => leafObj l

/-- List form of `leafValues` for array elements. -/
def leafArr : List SVal → List String
  | [] => []
  | x :: xs => leafValues x ++ leafArr xs

/-- List form of `leafValues` for object entries. -/
def leafObj : List (String × SVal) → List String
  | [] => []
  | (_, x) :: xs => leafValues x ++ leafObj xs
end

/-! Lemmas about path parsing. -/

/-- Bracketed form of one segment, as `appendValue` writes it. -/
def wrap (s : List Char) : List Char := '[' :: s ++ [']']

/-- Concatenation of the bracketed forms of a list of segments. -/
def bjoin (q : List (List Char)) : List Char := (q.map wrap).flatten

/-- Character-level form of `parsePath`. -/
def segsOf (l : List Char) : List (List Char) :=
  (splitRuns false l).filter (fun s => s ≠ [])

theorem parsePath_eq_segsOf (s : String) :
    parsePath s = (segsOf s.data).map List.asString := rfl

theorem consHead_ne_nil (c : Char) (L : List (List Char)) : consHead c L ≠ [] := by
  cases L <;> simp [consHead]

theorem splitRuns_ne_nil (f : Bool) (l : List Char) : splitRuns f l ≠ [] := by
  induction l generalizing f with
  | nil => simp [splitRuns]
  | cons c cs ih =>
    simp only [splitRuns]
    split
    · split
      · exact ih true
      · simp
    · exact consHead_ne_nil c _

theorem splitRuns_nonbracket_cons (c : Char) (cs : List Char) (f : Bool)
    (hc : isBracket c = false) :
    splitRuns f (c :: cs) = consHead c (splitRuns false cs) := by
  simp only [splitRuns, hc, Bool.false_eq_true, if_false]

theorem splitRuns_bracket_cons (c : Char) (cs : List Char)
    (hc : isBracket c = true) :
    splitRuns false (c :: cs) = [] :: splitRuns true cs ∧
    splitRuns true (c :: cs) = splitRuns true cs := by
  constructor <;> simp [splitRuns, hc]

theorem splitRuns_append_nonbracket (k : List Char) (r : List Char) (s : List Char)
    (ss : List (List Char)) (hk : ∀ c ∈ k, isBracket c = false)
    (hr : splitRuns false r = s :: ss) :
    splitRuns false (k ++ r) = (k ++ s) :: ss := by
  induction k with
  | nil => simpa using hr
  | cons c k' ih =>
    have hc : isBracket c = false := hk c (by simp)
    have ih' := ih (fun d hd => hk d (by simp [hd]))
    rw [List.cons_append, splitRuns_nonbracket_cons c _ false hc, ih']
    simp [consHead]

/-- Segments of the bracket-joined form of a well-formed segment list: the
split inside a run and the split outside a run both recover the segments. -/
theorem splitRuns_bjoin (q : List (List Char))
    (hq : ∀ s ∈ q, s ≠ [] ∧ ∀ c ∈ s, isBracket c = false) :
    ((splitRuns true (bjoin q)).filter (fun s => s ≠ []) = q) ∧
    (∃ M, splitRuns false (bjoin q) = [] :: M ∧ M.filter (fun s => s ≠ []) = q) := by
  induction q with
  | nil =>
    refine ⟨by simp [bjoin, splitRuns], [], by simp [bjoin, splitRuns], rfl⟩
  | cons s q' ih =>
    obtain ⟨hs, hsb⟩ := hq s (by simp)
    have ih' := ih (fun t ht => hq t (by simp [ht]))
    obtain ⟨c, s', rfl⟩ : ∃ c s', s = c :: s' := by
      cases s with
      | nil => exact absurd rfl hs
      | cons c s' => exact ⟨c, s', rfl⟩
    have hbj : bjoin ((c :: s') :: q') = '[' :: ((c :: s') ++ (']' :: bjoin q')) := by
      simp [bjoin, wrap]
    have hc : isBracket c = false := hsb c (by simp)
    have hlb : isBracket '[' = true := by simp [isBracket]
    have hrb : isBracket ']' = true := by simp [isBracket]
    have htail : splitRuns false (']' :: bjoin q') = [] :: splitRuns true (bjoin q') :=
      (splitRuns_bracket_cons ']' _ hrb).1
    have hmid : splitRuns false (s' ++ (']' :: bjoin q')) =
        (s' ++ []) :: splitRuns true (bjoin q') :=
      splitRuns_append_nonbracket s' _ [] _ (fun d hd => hsb d (by simp [hd])) htail
    have hrun : splitRuns true ((c :: s') ++ (']' :: bjoin q')) =
        (c :: s') :: splitRuns true (bjoin q') := by
      rw [List.cons_append, splitRuns_nonbracket_cons c _ true hc, hmid]
      simp [consHead]
    have hfull : splitRuns true (bjoin ((c :: s') :: q')) =
        (c :: s') :: splitRuns true (bjoin q') := by
      rw [hbj, (splitRuns_bracket_cons '[' _ hlb).2, hrun]
    have hfull0 : splitRuns false (bjoin ((c :: s') :: q')) =
        [] :: ((c :: s') :: splitRuns true (bjoin q')) := by
      rw [hbj, (splitRuns_bracket_cons '[' _ hlb).1, hrun]
    constructor
    · rw [hfull]
      simp only [List.filter_cons]
      simp only [ne_eq, decide_not] at ih'
      simp [ih'.1]
    · refine ⟨(c :: s') :: splitRuns true (bjoin q'), hfull0, ?_⟩
      simp only [List.filter_cons]
      simp only [ne_eq, decide_not] at ih'
      simp [ih'.1]

/-- Parsing the key built from a leading segment and bracketed segments
recovers exactly those segments. -/
theorem segsOf_append_bjoin (k : List Char) (q : List (List Char)) (hk : k ≠ [])
    (hkb : ∀ c ∈ k, isBracket c = false)
    (hq : ∀ s ∈ q, s ≠ [] ∧ ∀ c ∈ s, isBracket c = false) :
    segsOf (k ++ bjoin q) = k :: q := by
  obtain ⟨M, hM, hMf⟩ := (splitRuns_bjoin q hq).2
  have h2 := splitRuns_append_nonbracket k _ [] M hkb hM
  simp only [segsOf, h2, List.append_nil, List.filter_cons]
  rw [← hMf]
  simp [hk]

theorem data_eq_nil (s : String) : s.data = [] ↔ s = "" := by
  constructor
  · intro h
    cases s
    simp_all
  · intro h
    simp [h]

theorem asString_data (s : String) : s.data.asString = s :=
  String.asString_toList s

theorem data_asString (l : List Char) : (List.asString l).data = l :=
  List.toList_asString l

theorem map_asString_data (q : List String) :
    (q.map String.data).map List.asString = q := by
  induction q with
  | nil => rfl
  | cons s q ih => simp [ih, asString_data]

theorem isSeg_iff (s : String) :
    isSeg s = true ↔ s.data ≠ [] ∧ ∀ c ∈ s.data, isBracket c = false := by
  simp only [isSeg, Bool.and_eq_true, Bool.not_eq_true', beq_eq_false_iff_ne, ne_eq,
    List.all_eq_true, Bool.not_eq_true]
  constructor
  · rintro ⟨h1, h2⟩
    exact ⟨fun h => h1 ((data_eq_nil s).mp h), h2⟩
  · rintro ⟨h1, h2⟩
    exact ⟨fun h => h1 (by simp [h]), h2⟩

theorem extendKey_data (k : String) (q : List String) :
    (extendKey k q).data = k.data ++ bjoin (q.map String.data) := by
  induction q generalizing k with
  | nil => simp [extendKey, bjoin]
  | cons s q ih =>
    have : extendKey k (s :: q) = extendKey (k ++ "[" ++ s ++ "]") q := rfl
    rw [this, ih]
    simp only [String.data_append, List.map_cons, bjoin, List.flatten_cons, wrap]
    simp

/-- Parsing a key built by the encoder from well-formed segments recovers
exactly those segments. -/
theorem parsePath_extendKey (k : String) (q : List String) (hk : isSeg k = true)
    (hq : ∀ s ∈ q, isSeg s = true) :
    parsePath (extendKey k q) = k :: q := by
  obtain ⟨hk1, hk2⟩ := (isSeg_iff k).mp hk
  rw [parsePath_eq_segsOf, extendKey_data]
  rw [segsOf_append_bjoin k.data (q.map String.data) hk1 hk2]
  · simp only [List.map_cons]
    rw [asString_data, map_asString_data]
  · intro s hs
    simp only [List.mem_map] at hs
    obtain ⟨t, ht, rfl⟩ := hs
    exact (isSeg_iff t).mp (hq t ht)

/-- Parsing a single well-formed segment yields that segment alone. -/
theorem parsePath_seg (k : String) (hk : isSeg k = true) : parsePath k = [k] := by
  have := parsePath_extendKey k [] hk (by simp)
  simpa [extendKey] using this

/-- Keys that parse to no segments at all are exactly the keys made of
bracket characters only (including the empty key). -/
theorem parsePath_eq_nil_iff (s : String) :
    parsePath s = [] ↔ ∀ c ∈ s.data, isBracket c = true := by
  rw [parsePath_eq_segsOf]
  have main : ∀ (l : List Char) (f : Bool),
      ((splitRuns f l).filter (fun t => t ≠ []) = [] ↔ ∀ c ∈ l, isBracket c = true) := by
    intro l
    induction l with
    | nil => intro f; simp [splitRuns]
    | cons c cs ih =>
      intro f
      by_cases hc : isBracket c = true
      · have h1 := splitRuns_bracket_cons c cs hc
        cases f
        · rw [h1.1]
          simp only [List.filter_cons]
          simpa [hc] using ih true
        · rw [h1.2]
          simpa [hc] using ih true
      · have hc' : isBracket c = false := by simpa using hc
        rw [splitRuns_nonbracket_cons c cs f hc']
        obtain ⟨s, ss, hss⟩ : ∃ s ss, splitRuns false cs = s :: ss := by
          cases h : splitRuns false cs with
          | nil => exact absurd h (splitRuns_ne_nil false cs)
          | cons s ss => exact ⟨s, ss, rfl⟩
        rw [hss]
        simp [consHead, hc']
  have hm : (segsOf s.data).map List.asString = [] ↔ segsOf s.data = [] := by simp
  rw [hm, show segsOf s.data = (splitRuns false s.data).filter (fun t => t ≠ []) from rfl]
  exact main s.data false

/-! Lemmas about container properties and the insertion walk. -/

theorem lookupEntry_setEntry_self (es : List (String × DVal)) (k : String) (v : DVal) :
    lookupEntry (setEntry es k v) k = some v := by
  induction es with
  | nil => simp [setEntry, lookupEntry]
  | cons p rest ih =>
    obtain ⟨k', v'⟩ := p
    by_cases h : k' = k
    · simp [setEntry, lookupEntry, h]
    · simp [setEntry, lookupEntry, h, ih]

theorem setEntry_setEntry_self (es : List (String × DVal)) (k : String) (v w : DVal) :
    setEntry (setEntry es k v) k w = setEntry es k w := by
  induction es with
  | nil => simp [setEntry]
  | cons p rest ih =>
    obtain ⟨k', v'⟩ := p
    by_cases h : k' = k
    · simp [setEntry, h]
    · simp [setEntry, h, ih]

theorem lookupEntry_append_of_none (es es' : List (String × DVal)) (k : String)
    (h : lookupEntry es k = none) :
    lookupEntry (es ++ es') k = lookupEntry es' k := by
  induction es with
  | nil => rfl
  | cons p rest ih =>
    obtain ⟨k', v'⟩ := p
    by_cases hk : k' = k
    · simp [lookupEntry, hk] at h
    · simp only [lookupEntry, hk, if_false, List.cons_append] at h ⊢
      exact ih h

theorem setEntry_eq_append (es : List (String × DVal)) (k : String) (v : DVal)
    (h : lookupEntry es k = none) :
    setEntry es k v = es ++ [(k, v)] := by
  induction es with
  | nil => simp [setEntry]
  | cons p rest ih =>
    obtain ⟨k', v'⟩ := p
    by_cases hk : k' = k
    · simp [lookupEntry, hk] at h
    · simp only [lookupEntry, hk, if_false] at h
      simp [setEntry, hk, ih h]

theorem setEntry_append_last (es : List (String × DVal)) (k : String) (c c' : DVal)
    (h : lookupEntry es k = none) :
    setEntry (es ++ [(k, c)]) k c' = es ++ [(k, c')] := by
  induction es with
  | nil => simp [setEntry]
  | cons p rest ih =>
    obtain ⟨k', v'⟩ := p
    by_cases hk : k' = k
    · simp [lookupEntry, hk] at h
    · simp only [lookupEntry, hk, if_false] at h
      simp [setEntry, hk, ih h]

theorem Res.map_ok (f : DVal → DVal) (d : DVal) : Res.map f (.ok d) = .ok (f d) := rfl

theorem Res.map_throw (f : DVal → DVal) : Res.map f .throw = .throw := rfl

theorem Res.map_unknown (f : DVal → DVal) : Res.map f .unknown = .unknown := rfl

theorem Res.ok_bind (d : DVal) (f : DVal → Res) : Res.bind (.ok d) f = f d := rfl

theorem Res.bind_eq_ok (r : Res) (f : DVal → Res) (d : DVal) :
    r.bind f = .ok d ↔ ∃ t, r = .ok t ∧ f t = .ok d := by
  cases r <;> simp [Res.bind]

theorem Res.map_eq_ok (f : DVal → DVal) (r : Res) (d : DVal) :
    Res.map f r = .ok d ↔ ∃ c, r = .ok c ∧ d = f c := by
  cases r <;> simp [Res.map, eq_comm]

/-- Numeric tag of an outcome kind, used to state that whether an
insertion succeeds, throws or escapes does not depend on the value. -/
def Res.kind : Res → Nat
  | .ok _ => 0
  | .throw => 1
  | .unknown => 2

theorem Res.kind_map (f : DVal → DVal) (r : Res) : (Res.map f r).kind = r.kind := by
  cases r <;> rfl

theorem Res.kind_eq_throw (r : Res) (h : r.kind = 1) : r = .throw := by
  cases r <;> simp [Res.kind] at h ⊢

theorem Res.kind_eq_unknown (r : Res) (h : r.kind = 2) : r = .unknown := by
  cases r <;> simp [Res.kind] at h ⊢

theorem freshChild_truthy (k2 : String) : truthy (freshChild k2) = true := by
  unfold freshChild
  split <;> rfl

theorem stepChild_of_truthy (b : Bool) (es : List (String × DVal)) (k k2 : String)
    (c : DVal) (h : lookupEntry es k = some c) (ht : truthy c = true) :
    stepChild b es k k2 = some c := by
  simp [stepChild, h, ht]

theorem stepChild_of_falsy (b : Bool) (es : List (String × DVal)) (k k2 : String)
    (c : DVal) (h : lookupEntry es k = some c) (ht : truthy c = false) :
    stepChild b es k k2 = some (freshChild k2) := by
  simp [stepChild, h, ht]

theorem stepChild_of_absent_plain (b : Bool) (es : List (String × DVal)) (k k2 : String)
    (h : lookupEntry es k = none) (hp : (protoKeys b).contains k = false) :
    stepChild b es k k2 = some (freshChild k2) := by
  have hp' : k ∉ protoKeys b := by simpa using hp
  simp [stepChild, h, hp']

theorem stepChild_of_absent_proto (b : Bool) (es : List (String × DVal)) (k k2 : String)
    (h : lookupEntry es k = none) (hp : (protoKeys b).contains k = true) :
    stepChild b es k k2 = none := by
  have hp' : k ∈ protoKeys b := by simpa using hp
  simp [stepChild, h, hp']

theorem stepChild_truthy (b : Bool) (es : List (String × DVal)) (k k2 : String)
    (child : DVal) (h : stepChild b es k k2 = some child) : truthy child = true := by
  unfold stepChild at h
  cases hl : lookupEntry es k with
  | some c =>
    rw [hl] at h
    by_cases ht : truthy c = true
    · simp [ht] at h
      rw [← h]
      exact ht
    · simp [Bool.eq_false_iff.mpr ht] at h
      rw [← h]
      exact freshChild_truthy k2
  | none =>
    rw [hl] at h
    by_cases hp : k ∈ protoKeys b
    · rw [if_pos (by simpa using hp)] at h
      exact absurd h (by simp)
    · rw [if_neg (by simpa using hp)] at h
      injection h with h
      exact h ▸ freshChild_truthy k2

theorem setNestedValue_nil (t : DVal) (v : String) : setNestedValue t [] v = .ok t := by
  cases t <;> rfl

theorem setNestedValue_str_proto (s v : String) :
    setNestedValue (.str s) ["__proto__"] v = .ok (.str s) := rfl

theorem setNestedValue_str_final (s k v : String) (h : ¬(k = "__proto__")) :
    setNestedValue (.str s) [k] v = .throw := by
  have hb : (k == "__proto__") = false := by simpa using h
  simp [setNestedValue, hb]

theorem setNestedValue_str_deep (s k k2 : String) (rest : List String) (v : String) :
    setNestedValue (.str s) (k :: k2 :: rest) v = .unknown := rfl

theorem protoKeys_contains_length : (protoKeys true).contains "length" = true := rfl

theorem protoKeys_contains_proto (b : Bool) :
    (protoKeys b).contains "__proto__" = true := by
  cases b <;> rfl

theorem setNestedValue_last_not_special (b : Bool) (es : List (String × DVal))
    (k v : String) (hb : (b && (k == "length")) = false)
    (hp : (k == "__proto__" && (lookupEntry es k).isNone) = false) :
    setNestedValue (.coll b es) [k] v = .ok (.coll b (setEntry es k (.str v))) := by
  simp only [setNestedValue, hb, hp, Bool.false_eq_true, if_false]

/-- A final write under a key without inherited meaning (for the
container's kind) is a plain own-property write. -/
theorem setNestedValue_last_plain (b : Bool) (es : List (String × DVal)) (k v : String)
    (h : (protoKeys b).contains k = false) :
    setNestedValue (.coll b es) [k] v = .ok (.coll b (setEntry es k (.str v))) := by
  have hp : (k == "__proto__") = false := by
    by_contra hc
    have : k = "__proto__" := by simpa using hc
    rw [this, protoKeys_contains_proto b] at h
    exact absurd h (by simp)
  apply setNestedValue_last_not_special
  · cases b with
    | false => rfl
    | true =>
      have hl : (k == "length") = false := by
        by_contra hc
        have : k = "length" := by simpa using hc
        rw [this, protoKeys_contains_length] at h
        exact absurd h (by simp)
      simp [hl]
  · simp [hp]

/-- A final write under an own-present key is a plain own-property write
(the inherited "__proto__" accessor is shadowed only in states where an
own data property exists). -/
theorem setNestedValue_last_present (b : Bool) (es : List (String × DVal)) (k v : String)
    (c : DVal) (hb : (b && (k == "length")) = false) (h : lookupEntry es k = some c) :
    setNestedValue (.coll b es) [k] v = .ok (.coll b (setEntry es k (.str v))) := by
  apply setNestedValue_last_not_special b es k v hb
  simp [h]

/-- Writing "__proto__" with no own property of that name invokes the
inherited accessor, which silently ignores a string value. -/
theorem setNestedValue_last_proto_absent (b : Bool) (es : List (String × DVal))
    (v : String) (h : lookupEntry es "__proto__" = none) :
    setNestedValue (.coll b es) ["__proto__"] v = .ok (.coll b es) := by
  have hb : (b && ("__proto__" == "length")) = false := by cases b <;> rfl
  simp [setNestedValue, hb, h]

theorem setNestedValue_cons_step (b : Bool) (es : List (String × DVal)) (k k2 : String)
    (rest : List String) (v : String) (child : DVal)
    (h : stepChild b es k k2 = some child) :
    setNestedValue (.coll b es) (k :: k2 :: rest) v =
      Res.map (fun c => .coll b (setEntry es k c)) (setNestedValue child (k2 :: rest) v) := by
  simp only [setNestedValue, h]

theorem setNestedValue_cons_escape (b : Bool) (es : List (String × DVal)) (k k2 : String)
    (rest : List String) (v : String) (h : stepChild b es k k2 = none) :
    setNestedValue (.coll b es) (k :: k2 :: rest) v = .unknown := by
  simp only [setNestedValue, h]

/-- Inserting into a container that succeeds yields a container with the
same isArray flag. -/
theorem setNestedValue_coll (b : Bool) (es : List (String × DVal)) (ks : List String)
    (v : String) (d : DVal) (h : setNestedValue (.coll b es) ks v = .ok d) :
    ∃ es', d = .coll b es' := by
  cases ks with
  | nil =>
    rw [setNestedValue_nil] at h
    exact ⟨es, by injection h with h; exact h.symm⟩
  | cons k rest =>
    cases rest with
    | nil =>
      simp only [setNestedValue] at h
      split at h
      · exact absurd h (by simp)
      · split at h
        · exact ⟨es, by injection h with h; exact h.symm⟩
        · exact ⟨setEntry es k (.str v), by injection h with h; exact h.symm⟩
    | cons k2 rest' =>
      cases hs : stepChild b es k k2 with
      | none => rw [setNestedValue_cons_escape b es k k2 rest' v hs] at h; exact absurd h (by simp)
      | some child =>
        rw [setNestedValue_cons_step b es k k2 rest' v child hs] at h
        obtain ⟨c, _, rfl⟩ := (Res.map_eq_ok _ _ _).mp h
        exact ⟨setEntry es k c, rfl⟩

/-- A successful insertion into a truthy value yields a truthy value. -/
theorem setNestedValue_ok_truthy (s : DVal) (ks : List String) (v : String) (d : DVal)
    (hs : truthy s = true) (h : setNestedValue s ks v = .ok d) : truthy d = true := by
  cases s with
  | str t =>
    cases ks with
    | nil =>
      rw [setNestedValue_nil] at h
      injection h with h
      rw [← h]
      exact hs
    | cons k rest =>
      cases rest with
      | nil =>
        by_cases hp : k = "__proto__"
        · subst hp
          rw [setNestedValue_str_proto] at h
          injection h with h
          rw [← h]
          exact hs
        · rw [setNestedValue_str_final t k v hp] at h
          exact absurd h (by simp)
      | cons k2 rest' =>
        rw [setNestedValue_str_deep] at h
        exact absurd h (by simp)
  | coll b es =>
    obtain ⟨es', rfl⟩ := setNestedValue_coll b es ks v d h
    rfl

/-- Whether an insertion succeeds, throws or escapes depends only on the
walked structure and the path, never on the inserted value. -/
theorem setNestedValue_kind_congr (s : DVal) (ks : List String) (v w : String) :
    (setNestedValue s ks v).kind = (setNestedValue s ks w).kind := by
  induction ks generalizing s with
  | nil => rw [setNestedValue_nil, setNestedValue_nil]
  | cons k rest ih =>
    cases s with
    | str t =>
      cases rest with
      | nil =>
        by_cases hp : k = "__proto__"
        · subst hp
          rw [setNestedValue_str_proto, setNestedValue_str_proto]
        · rw [setNestedValue_str_final t k v hp, setNestedValue_str_final t k w hp]
      | cons k2 rest' =>
        rw [setNestedValue_str_deep, setNestedValue_str_deep]
    | coll b es =>
      cases rest with
      | nil =>
        simp only [setNestedValue]
        split
        · rfl
        · split <;> rfl
      | cons k2 rest' =>
        cases hs : stepChild b es k k2 with
        | none =>
          rw [setNestedValue_cons_escape b es k k2 rest' v hs,
            setNestedValue_cons_escape b es k k2 rest' w hs]
        | some child =>
          rw [setNestedValue_cons_step b es k k2 rest' v child hs,
            setNestedValue_cons_step b es k k2 rest' w child hs,
            Res.kind_map, Res.kind_map]
          exact ih child

/-- Writing twice along the same segment path is the same as writing only
the second value: a successful walk reaches the same leaf and overwrites
it, and a throwing or escaping walk throws or escapes identically. -/
theorem setNestedValue_overwrite (ks : List String) (s : DVal) (v w : String) :
    (setNestedValue s ks v).bind (fun t => setNestedValue t ks w) =
      setNestedValue s ks w := by
  induction ks generalizing s with
  | nil => rw [setNestedValue_nil, Res.ok_bind]
  | cons k rest ih =>
    cases s with
    | str t =>
      cases rest with
      | nil =>
        by_cases hp : k = "__proto__"
        · subst hp
          rw [setNestedValue_str_proto, Res.ok_bind, setNestedValue_str_proto]
        · rw [setNestedValue_str_final t k v hp, setNestedValue_str_final t k w hp]
          rfl
      | cons k2 rest' =>
        rw [setNestedValue_str_deep, setNestedValue_str_deep]
        rfl
    | coll b es =>
      cases rest with
      | nil =>
        rcases hsp : setNestedValue (.coll b es) [k] v with d | _ | _
        · simp only [setNestedValue] at hsp ⊢
          split at hsp
          · exact absurd hsp (by simp)
          · split at hsp
            · rename_i hlen hpr
              injection hsp with hsp
              rw [← hsp, Res.ok_bind]
              simp only [setNestedValue, hlen, Bool.false_eq_true, if_false, hpr, if_true]
            · rename_i hlen hpr
              injection hsp with hsp
              rw [← hsp, Res.ok_bind]
              simp only [setNestedValue, hlen, Bool.false_eq_true, if_false]
              have hpr2 : (k == "__proto__" &&
                  (lookupEntry (setEntry es k (.str v)) k).isNone) = false := by
                rw [lookupEntry_setEntry_self]
                simp
              rw [if_neg (by simp [hpr2]), if_neg (by simp [hpr])]
              rw [setEntry_setEntry_self]
        · have hk := setNestedValue_kind_congr (DVal.coll b es) [k] v w
          rw [hsp] at hk
          rw [Res.kind_eq_throw _ hk.symm]
          rfl
        · have hk := setNestedValue_kind_congr (DVal.coll b es) [k] v w
          rw [hsp] at hk
          rw [Res.kind_eq_unknown _ hk.symm]
          rfl
      | cons k2 rest' =>
        cases hs : stepChild b es k k2 with
        | none =>
          rw [setNestedValue_cons_escape b es k k2 rest' v hs,
            setNestedValue_cons_escape b es k k2 rest' w hs]
          rfl
        | some child =>
          have hct : truthy child = true := stepChild_truthy b es k k2 child hs
          rw [setNestedValue_cons_step b es k k2 rest' v child hs,
            setNestedValue_cons_step b es k k2 rest' w child hs]
          rcases hv : setNestedValue child (k2 :: rest') v with c₁ | _ | _
          · have hc₁ : truthy c₁ = true :=
              setNestedValue_ok_truthy child (k2 :: rest') v c₁ hct hv
            rw [Res.map_ok, Res.ok_bind]
            rw [setNestedValue_cons_step b (setEntry es k c₁) k k2 rest' w c₁
              (stepChild_of_truthy b _ k k2 c₁ (lookupEntry_setEntry_self es k c₁) hc₁)]
            have hIH := ih child
            rw [hv, Res.ok_bind] at hIH
            rw [hIH]
            have hse : ∀ c, setEntry (setEntry es k c₁) k c = setEntry es k c :=
              fun c => setEntry_setEntry_self es k c₁ c
            cases setNestedValue child (k2 :: rest') w <;> simp [Res.map, hse]
          · have hk := setNestedValue_kind_congr child (k2 :: rest') v w
            rw [hv] at hk
            rw [Res.kind_eq_throw _ hk.symm]
            rfl
          · have hk := setNestedValue_kind_congr child (k2 :: rest') v w
            rw [hv] at hk
            rw [Res.kind_eq_unknown _ hk.symm]
            rfl

theorem getPath_cons (b : Bool) (es : List (String × DVal)) (k : String)
    (rest : List String) :
    getPath (.coll b es) (k :: rest) =
      (lookupEntry es k).bind (fun c => getPath c rest) := by
  cases h : lookupEntry es k <;> simp [getPath, h]

/-- After a successful insertion along a non-empty path that never uses the
key "__proto__", reading that path back yields exactly the inserted
value. -/
theorem getPath_setNestedValue (ks : List String) (s d : DVal) (v : String)
    (h : setNestedValue s ks v = .ok d) (hne : ks ≠ [])
    (hpr : "__proto__" ∉ ks) :
    getPath d ks = some (.str v) := by
  induction ks generalizing s d with
  | nil => exact absurd rfl hne
  | cons k rest ih =>
    have hkp : ¬(k = "__proto__") := fun hh => hpr (by simp [hh])
    cases s with
    | str t =>
      cases rest with
      | nil =>
        rw [setNestedValue_str_final t k v hkp] at h
        exact absurd h (by simp)
      | cons k2 rest' =>
        rw [setNestedValue_str_deep] at h
        exact absurd h (by simp)
    | coll b es =>
      cases rest with
      | nil =>
        simp only [setNestedValue] at h
        split at h
        · exact absurd h (by simp)
        · split at h
          · rename_i hpr2
            rw [Bool.and_eq_true] at hpr2
            exact absurd (by simpa using hpr2.1) hkp
          · injection h with h
            rw [← h, getPath_cons, lookupEntry_setEntry_self]
            rfl
      | cons k2 rest' =>
        cases hs : stepChild b es k k2 with
        | none =>
          rw [setNestedValue_cons_escape b es k k2 rest' v hs] at h
          exact absurd h (by simp)
        | some child =>
          rw [setNestedValue_cons_step b es k k2 rest' v child hs] at h
          obtain ⟨c₁, hc₁, rfl⟩ := (Res.map_eq_ok _ _ _).mp h
          rw [getPath_cons, lookupEntry_setEntry_self]
          exact ih child c₁ hc₁ (by simp) (fun hm => hpr (by simp [hm]))

theorem decodeFromRes_throw (pairs : List (String × String)) :
    decodeFromRes .throw pairs = .throw := by
  induction pairs with
  | nil => rfl
  | cons p rest ih => exact ih

theorem decodeFromRes_unknown (pairs : List (String × String)) :
    decodeFromRes .unknown pairs = .unknown := by
  induction pairs with
  | nil => rfl
  | cons p rest ih => exact ih

theorem decodeFromRes_cons (r : Res) (p : String × String)
    (pairs : List (String × String)) :
    decodeFromRes r (p :: pairs) =
      decodeFromRes (r.bind (fun s => setNestedValue s (parsePath p.1) p.2)) pairs := rfl

theorem decodeFrom_cons (s : DVal) (p : String × String) (pairs : List (String × String)) :
    decodeFrom s (p :: pairs) =
      (setNestedValue s (parsePath p.1) p.2).bind (fun t => decodeFrom t pairs) := by
  rw [decodeFrom, decodeFromRes_cons, Res.ok_bind]
  cases setNestedValue s (parsePath p.1) p.2 with
  | ok t => rfl
  | throw => exact decodeFromRes_throw pairs
  | unknown => exact decodeFromRes_unknown pairs

theorem decodeFromRes_append (r : Res) (l₁ l₂ : List (String × String)) :
    decodeFromRes r (l₁ ++ l₂) = decodeFromRes (decodeFromRes r l₁) l₂ := by
  simp [decodeFromRes, List.foldl_append]

theorem decodeFrom_append (s : DVal) (pairs₁ pairs₂ : List (String × String)) :
    decodeFrom s (pairs₁ ++ pairs₂) =
      (decodeFrom s pairs₁).bind (fun t => decodeFrom t pairs₂) := by
  rw [decodeFrom, decodeFrom, decodeFromRes_append]
  cases h : decodeFromRes (.ok s) pairs₁ with
  | ok t => rfl
  | throw => rw [decodeFromRes_throw]; rfl
  | unknown => rw [decodeFromRes_unknown]; rfl

/-- Pairs whose key parses to no segments leave the state untouched, so
dropping them from the input does not change the decode result. -/
theorem decodeFrom_filter_empty_paths (pairs : List (String × String)) :
    ∀ s, decodeFrom s pairs =
      decodeFrom s (pairs.filter (fun p => parsePath p.1 ≠ [])) := by
  induction pairs with
  | nil => intro s; rfl
  | cons p rest ih =>
    intro s
    by_cases hp : parsePath p.1 = []
    · rw [decodeFrom_cons, hp, setNestedValue_nil, Res.ok_bind]
      rw [ih s]
      congr 1
      simp [List.filter_cons, hp]
    · have hf : (p :: rest).filter (fun q => parsePath q.1 ≠ []) =
          p :: rest.filter (fun q => parsePath q.1 ≠ []) := by
        simp [List.filter_cons, hp]
      rw [decodeFrom_cons, hf, decodeFrom_cons]
      cases hs : setNestedValue s (parsePath p.1) p.2 with
      | ok t =>
        rw [Res.ok_bind, Res.ok_bind]
        exact ih t
      | throw => rfl
      | unknown => rfl

/-- Members of the bracket-run split carry no bracket characters. -/
theorem splitRuns_mem_no_bracket (l : List Char) :
    ∀ (f : Bool) (t : List Char), t ∈ splitRuns f l → ∀ c ∈ t, isBracket c = false := by
  induction l with
  | nil =>
    intro f t ht c hc
    simp [splitRuns] at ht
    simp [ht] at hc
  | cons a cs ih =>
    intro f t ht c hc
    by_cases ha : isBracket a = true
    · cases f with
      | false =>
        rw [(splitRuns_bracket_cons a cs ha).1] at ht
        rcases List.mem_cons.mp ht with rfl | ht'
        · simp at hc
        · exact ih true t ht' c hc
      | true =>
        rw [(splitRuns_bracket_cons a cs ha).2] at ht
        exact ih true t ht c hc
    · have ha' : isBracket a = false := by simpa using ha
      rw [splitRuns_nonbracket_cons a cs f ha'] at ht
      obtain ⟨s, ss, hss⟩ : ∃ s ss, splitRuns false cs = s :: ss := by
        cases h : splitRuns false cs with
        | nil => exact absurd h (splitRuns_ne_nil false cs)
        | cons s ss => exact ⟨s, ss, rfl⟩
      rw [hss] at ht
      simp only [consHead] at ht
      rcases List.mem_cons.mp ht with rfl | ht'
      · rcases List.mem_cons.mp hc with rfl | hc'
        · exact ha'
        · exact ih false s (by simp [hss]) c hc'
      · exact ih false t (by simp [hss, ht']) c hc

/-- Every segment produced by `parsePath` is non-empty and bracket-free. -/
theorem parsePath_mem_isSeg (k s : String) (hs : s ∈ parsePath k) : isSeg s = true := by
  rw [parsePath_eq_segsOf] at hs
  obtain ⟨t, ht, rfl⟩ := List.mem_map.mp hs
  simp only [segsOf, List.mem_filter] at ht
  obtain ⟨htm, hte⟩ := ht
  rw [isSeg_iff]
  constructor
  · rw [data_asString]
    simpa using hte
  · intro c hc
    rw [data_asString] at hc
    exact splitRuns_mem_no_bracket k.data false t htm c hc

/-! Claim theorems. -/

/-- C2: the decoder splits a raw path key on maximal runs of bracket
characters and discards the empty segments (those produced by adjacent
delimiters or leading/trailing brackets); in particular
"users[0][tags][0]" parses to exactly ["users", "0", "tags", "0"], and
every surviving segment is non-empty and bracket-free. -/
theorem C2_parse_path_splits_on_bracket_runs :
    parsePath "users[0][tags][0]" = ["users", "0", "tags", "0"] ∧
    (∀ k s : String, s ∈ parsePath k → isSeg s = true) :=
  ⟨rfl, fun k s hs => parsePath_mem_isSeg k s hs⟩

/-- Witness for C2: the theorem applied to the concrete key
"users[0][tags][0]" and its segment "tags". -/
theorem C2_parse_path_splits_on_bracket_runs_witness : isSeg "tags" = true :=
  C2_parse_path_splits_on_bracket_runs.2 "users[0][tags][0]" "tags" (by decide)

/-- C3 counterexample: after decoding the pair ("a", ""), the top container
holds the key "a" (bound to the empty string), so it does not lack that
key; yet decoding "a[b]" = "x" afterwards replaces that value with a fresh
object instead of descending into the existing value.  Creation is keyed
on JavaScript falsiness of current[key], not on the key being absent, so
the claim's "if and only if the container lacks the key" is false. -/
theorem C3_counterexample :
    decode [("a", "")] = .ok (.coll false [("a", .str "")]) ∧
    lookupEntry [("a", DVal.str "")] "a" = some (.str "") ∧
    decode [("a", ""), ("a[b]", "x")] =
      .ok (.coll false [("a", .coll false [("b", .str "x")])]) :=
  ⟨rfl, rfl, rfl⟩

/-- C3 (amended): at a non-final segment the walk reads current[key]
through the prototype chain and creates a fresh child container exactly
when that read is JavaScript-falsy; the fresh container is an array
precisely when the next segment is an index.  An own value that is truthy
(a container or a non-empty string) is descended into without being
replaced; an own empty string is falsy and is replaced by a fresh
container; an own-absent key whose name means nothing on the prototype
chain reads undefined and gets a fresh container; an own-absent key naming
an inherited member (such as "constructor" or "toString") reads that
truthy host value and the walk leaves the modelled result tree. -/
theorem C3_child_creation_on_falsy :
    ∀ (b : Bool) (es : List (String × DVal)) (k k2 : String) (rest : List String)
      (v : String),
      ((freshChild k2 = .coll true []) ↔ isIndex k2 = true) ∧
      (∀ c, lookupEntry es k = some c → truthy c = true →
        setNestedValue (.coll b es) (k :: k2 :: rest) v =
          (setNestedValue c (k2 :: rest) v).map
            (fun c2 => .coll b (setEntry es k c2))) ∧
      (∀ c, lookupEntry es k = some c → truthy c = false →
        setNestedValue (.coll b es) (k :: k2 :: rest) v =
          (setNestedValue (freshChild k2) (k2 :: rest) v).map
            (fun c2 => .coll b (setEntry es k c2))) ∧
      (lookupEntry es k = none → (protoKeys b).contains k = false →
        setNestedValue (.coll b es) (k :: k2 :: rest) v =
          (setNestedValue (freshChild k2) (k2 :: rest) v).map
            (fun c2 => .coll b (setEntry es k c2))) ∧
      (lookupEntry es k = none → (protoKeys b).contains k = true →
        setNestedValue (.coll b es) (k :: k2 :: rest) v = .unknown) := by
  intro b es k k2 rest v
  refine ⟨?_, ?_, ?_, ?_, ?_⟩
  · cases hi : isIndex k2 <;> simp [freshChild, hi]
  · intro c h ht
    rw [setNestedValue_cons_step b es k k2 rest v c
      (stepChild_of_truthy b es k k2 c h ht)]
  · intro c h ht
    rw [setNestedValue_cons_step b es k k2 rest v _
      (stepChild_of_falsy b es k k2 c h ht)]
  · intro h hp
    rw [setNestedValue_cons_step b es k k2 rest v _
      (stepChild_of_absent_plain b es k k2 h hp)]
  · intro h hp
    rw [setNestedValue_cons_escape b es k k2 rest v
      (stepChild_of_absent_proto b es k k2 h hp)]

/-- Witness for C3 (amended): the own-absent plain-key case at a concrete
input. -/
theorem C3_child_creation_on_falsy_witness :
    setNestedValue (.coll false []) ["a", "0"] "x" =
      (setNestedValue (freshChild "0") ["0"] "x").map
        (fun c => DVal.coll false (setEntry [] "a" c)) :=
  (C3_child_creation_on_falsy false [] "a" "0" [] "x").2.2.2.1 rfl rfl

/-- C4: a value assigned into an array container lands at the property
named by the decimal value of its index segment, not at the next position
in arrival order: decoding tags[1]=bar then tags[0]=foo yields foo at
position 0 and bar at position 1, and the two arrival orders read back
identically position by position. -/
theorem C4_array_position_by_index_value :
    (decode [("tags[1]", "bar"), ("tags[0]", "foo")] =
      .ok (.coll false
        [("tags", .coll true [("1", .str "bar"), ("0", .str "foo")])])) ∧
    (∀ v0 v1 : String,
      ((decode [("tags[1]", v1), ("tags[0]", v0)]).toOption.bind
          (fun d => getPath d ["tags", Nat.repr 0]) = some (.str v0) ∧
        (decode [("tags[1]", v1), ("tags[0]", v0)]).toOption.bind
          (fun d => getPath d ["tags", Nat.repr 1]) = some (.str v1)) ∧
      ((decode [("tags[0]", v0), ("tags[1]", v1)]).toOption.bind
          (fun d => getPath d ["tags", Nat.repr 0]) = some (.str v0) ∧
        (decode [("tags[0]", v0), ("tags[1]", v1)]).toOption.bind
          (fun d => getPath d ["tags", Nat.repr 1]) = some (.str v1))) :=
  ⟨rfl, fun _ _ => ⟨⟨rfl, rfl⟩, ⟨rfl, rfl⟩⟩⟩

/-- C5 counterexample: decode has no configuration parameter, so no mode
can be selected; decoding the single pair ("k", "") leaves the key present
and bound to the empty string.  This is the keep behavior and refutes the
claimed set-undefined behavior (key absent from the result) and set-null
behavior (key bound to the absent-marker) at this concrete input. -/
theorem C5_counterexample :
    decode [("k", "")] = .ok (.coll false [("k", .str "")]) ∧
    lookupEntry [("k", DVal.str "")] "k" = some (.str "") :=
  ⟨rfl, rfl⟩

/-- C5 (amended): the decoder accepts no empty-string mode option; its
behavior is always that of the keep mode: decoding the single pair
(k, "") yields the result that maps k to the empty string, for every
well-formed single-segment key other than "__proto__" — that one key
invokes the inherited accessor, which silently ignores the string, leaving
the result empty. -/
theorem C5_empty_string_always_kept :
    (∀ k : String, isSeg k = true → ¬(k = "__proto__") →
      decode [(k, "")] = .ok (.coll false [(k, .str "")])) ∧
    decode [("__proto__", "")] = .ok (.coll false []) := by
  constructor
  · intro k hk hpr
    show decodeFrom (.coll false []) [(k, "")] = _
    rw [decodeFrom_cons]
    show (setNestedValue (.coll false []) (parsePath k) "").bind _ = _
    rw [parsePath_seg k hk]
    rw [setNestedValue_last_not_special false [] k "" rfl (by simp [hpr])]
    rfl
  · rfl

/-- Witness for C5 (amended) at the concrete key "name". -/
theorem C5_empty_string_always_kept_witness :
    isSeg "name" = true ∧ ¬("name" = "__proto__") ∧
    decode [("name", "")] = .ok (.coll false [("name", .str "")]) :=
  ⟨rfl, by decide, C5_empty_string_always_kept.1 "name" rfl (by decide)⟩

/-- C7: the three pairs users[0][name]=john, users[1][name]=jane,
users[0][tags][0]=foo decode to an array of two objects in which index 0
carries name and tags while index 1 carries only name; pairs sharing the
path prefix users[0] were merged into one container, and no tags key
exists at index 1. -/
theorem C7_heterogeneous_array_of_objects :
    decode [("users[0][name]", "john"), ("users[1][name]", "jane"),
        ("users[0][tags][0]", "foo")] =
      .ok (.coll false [("users", .coll true
        [("0", .coll false
            [("name", .str "john"), ("tags", .coll true [("0", .str "foo")])]),
         ("1", .coll false [("name", .str "jane")])])]) ∧
    lookupEntry [("name", DVal.str "jane")] "tags" = none :=
  ⟨rfl, rfl⟩

/-- C9: a pair whose raw key parses to zero segments (the key is empty or
consists of bracket characters only) is silently ignored: decoding any
sequence gives the same result as decoding the sequence with those pairs
removed, and the ignored pairs raise no error. -/
theorem C9_zero_segment_pairs_ignored :
    (∀ pairs : List (String × String),
      decode pairs = decode (pairs.filter (fun p => parsePath p.1 ≠ []))) ∧
    (∀ k : String, parsePath k = [] ↔ ∀ c ∈ k.data, isBracket c = true) :=
  ⟨fun pairs => decodeFrom_filter_empty_paths pairs _,
   fun k => parsePath_eq_nil_iff k⟩

/-- Witness for C9: dropping the zero-segment pair ("][", "v") from a
concrete sequence does not change the decode result. -/
theorem C9_zero_segment_pairs_ignored_witness :
    decode [("][", "v"), ("a", "x")] = decode [("a", "x")] :=
  (C9_zero_segment_pairs_ignored.1 [("][", "v"), ("a", "x")]).trans rfl

/-- C10 counterexample: the raw key "__proto__" parses to the single
segment "__proto__"; with no own property of that name, assigning it
invokes the inherited __proto__ accessor, which silently ignores a string
value, so after two occurrences of that full path key the decoded result
holds no value at that path at all — not the value of the last
occurrence. -/
theorem C10_counterexample :
    decode [("__proto__", "1"), ("__proto__", "2")] = .ok (.coll false []) ∧
    parsePath "__proto__" = ["__proto__"] ∧
    getPath (.coll false []) ["__proto__"] = none :=
  ⟨rfl, rfl, rfl⟩

/-- C10 (amended): writing twice along one parsed segment path equals
writing only the second value; and when the final pair of a successful
decode is (K, v) and K's parsed path is non-empty and never uses the
segment "__proto__", reading back that path yields v. -/
theorem C10_last_occurrence_wins :
    (∀ (ks : List String) (s : DVal) (v w : String),
      (setNestedValue s ks v).bind (fun t => setNestedValue t ks w) =
        setNestedValue s ks w) ∧
    (∀ (qs : List (String × String)) (K v : String) (d : DVal),
      decode (qs ++ [(K, v)]) = .ok d → parsePath K ≠ [] →
      "__proto__" ∉ parsePath K →
      getPath d (parsePath K) = some (.str v)) := by
  constructor
  · exact fun ks s v w => setNestedValue_overwrite ks s v w
  · intro qs K v d h hK hpr
    replace h : decodeFrom (.coll false []) (qs ++ [(K, v)]) = .ok d := h
    rw [decodeFrom_append] at h
    obtain ⟨s₀, hs₀, hstep⟩ := (Res.bind_eq_ok _ _ _).mp h
    rw [decodeFrom_cons] at hstep
    obtain ⟨d', hd', hdd⟩ := (Res.bind_eq_ok _ _ _).mp hstep
    have hdd' : d' = d := by
      simpa [decodeFrom, decodeFromRes] using hdd
    subst hdd'
    exact getPath_setNestedValue (parsePath K) s₀ _ v hd' hK hpr

/-- Witness for C10 (amended): duplicate raw key "a[b]", last value "2"
wins. -/
theorem C10_last_occurrence_wins_witness :
    getPath (.coll false [("a", .coll false [("b", .str "2")])]) (parsePath "a[b]") =
      some (.str "2") :=
  C10_last_occurrence_wins.2 [("a[b]", "1")] "a[b]" "2"
    (.coll false [("a", .coll false [("b", .str "2")])]) rfl (by decide) (by decide)

/-! Induction principle for the nested inductive of structured values. -/

/-- Structural induction over `SVal` with membership hypotheses for the
children of arrays and objects. -/
theorem SVal.myInduction (P : SVal → Prop)
    (hnull : P .null)
    (hstr : ∀ s, P (.str s))
    (harr : ∀ l, (∀ x ∈ l, P x) → P (.arr l))
    (hobj : ∀ l, (∀ p ∈ l, P p.2) → P (.obj l)) : ∀ v, P v := fun v =>
  match v with
  | .null => hnull
  | .str s => hstr s
  | .arr l => harr l (fun x hx => SVal.myInduction P hnull hstr harr hobj x)
  | .obj l => hobj l (fun p hp => SVal.myInduction P hnull hstr harr hobj p.2)
termination_by v => sizeOf v
decreasing_by
  · have := List.sizeOf_lt_of_mem hx
    simp only [SVal.arr.sizeOf_spec]
    omega
  · have h1 := List.sizeOf_lt_of_mem hp
    have h2 : sizeOf p.2 < sizeOf p := by
      obtain ⟨a, b⟩ := p
      simp only [Prod.mk.sizeOf_spec]
      omega
    simp only [SVal.obj.sizeOf_spec]
    omega

/-! Facts about the decimal representation of array indices. -/

theorem digitChar_isDigit (d : Nat) (h : d < 10) : (Nat.digitChar d).isDigit = true := by
  interval_cases d <;> decide

theorem toDigitsCore_digits (fuel : Nat) :
    ∀ (n : Nat) (acc : List Char), (∀ c ∈ acc, c.isDigit = true) →
      ∀ c ∈ Nat.toDigitsCore 10 fuel n acc, c.isDigit = true := by
  induction fuel with
  | zero =>
    intro n acc hacc c hc
    simp only [Nat.toDigitsCore] at hc
    exact hacc c hc
  | succ fuel ih =>
    intro n acc hacc c hc
    simp only [Nat.toDigitsCore] at hc
    have hd : (Nat.digitChar (n % 10)).isDigit = true :=
      digitChar_isDigit (n % 10) (Nat.mod_lt _ (by norm_num))
    split at hc
    · rcases List.mem_cons.mp hc with rfl | hc'
      · exact hd
      · exact hacc c hc'
    · refine ih (n / 10) (Nat.digitChar (n % 10) :: acc) ?_ c hc
      intro d hdm
      rcases List.mem_cons.mp hdm with rfl | hdm'
      · exact hd
      · exact hacc d hdm'

theorem toDigitsCore_ne_nil (b fuel n : Nat) (acc : List Char) (hacc : acc ≠ []) :
    Nat.toDigitsCore b fuel n acc ≠ [] := by
  induction fuel generalizing n acc with
  | zero => simpa [Nat.toDigitsCore] using hacc
  | succ fuel ih =>
    simp only [Nat.toDigitsCore]
    split
    · simp
    · exact ih (n / b) _ (by simp)

theorem toDigits_ne_nil (n : Nat) : Nat.toDigits 10 n ≠ [] := by
  show Nat.toDigitsCore 10 (n + 1) n [] ≠ []
  simp only [Nat.toDigitsCore]
  split
  · simp
  · exact toDigitsCore_ne_nil 10 n (n / 10) _ (by simp)

theorem repr_data (n : Nat) : (Nat.repr n).data = Nat.toDigits 10 n := by
  rw [Nat.repr]
  exact data_asString _

theorem isIndex_repr (n : Nat) : isIndex (Nat.repr n) = true := by
  simp only [isIndex, Bool.and_eq_true, Bool.not_eq_true', beq_eq_false_iff_ne, ne_eq,
    List.all_eq_true]
  constructor
  · intro h
    have hnil := (data_eq_nil _).mpr h
    rw [repr_data] at hnil
    exact toDigits_ne_nil n hnil
  · intro c hc
    rw [repr_data] at hc
    exact toDigitsCore_digits (n + 1) n [] (by simp) c hc

theorem isDigit_not_bracket (c : Char) (h : c.isDigit = true) : isBracket c = false := by
  by_contra hb
  have hb' : isBracket c = true := by simpa using hb
  simp only [isBracket, Bool.or_eq_true, decide_eq_true_eq] at hb'
  rcases hb' with rfl | rfl <;> exact absurd h (by decide)

theorem isSeg_repr (n : Nat) : isSeg (Nat.repr n) = true := by
  have hi := isIndex_repr n
  simp only [isIndex, Bool.and_eq_true, List.all_eq_true] at hi
  simp only [isSeg, Bool.and_eq_true, List.all_eq_true]
  refine ⟨hi.1, ?_⟩
  intro c hc
  simp [isDigit_not_bracket c (hi.2 c hc)]

theorem isName_isSeg (s : String) (h : isName s = true) : isSeg s = true := by
  simp only [isName, Bool.and_eq_true] at h
  simp only [isSeg, Bool.and_eq_true]
  exact ⟨h.1.1, h.1.2⟩

theorem isName_not_isIndex (s : String) (h : isName s = true) : isIndex s = false := by
  simp only [isName, Bool.and_eq_true, Bool.not_eq_true'] at h
  simp only [isIndex, Bool.and_eq_false_iff]
  right
  exact h.2

theorem toDigitsCore_append (b fuel : Nat) :
    ∀ (n : Nat) (acc : List Char),
      Nat.toDigitsCore b fuel n acc = Nat.toDigitsCore b fuel n [] ++ acc := by
  induction fuel with
  | zero => intro n acc; simp [Nat.toDigitsCore]
  | succ fuel ih =>
    intro n acc
    simp only [Nat.toDigitsCore]
    split
    · simp
    · rw [ih (n / b) (Nat.digitChar (n % b) :: acc), ih (n / b) [Nat.digitChar (n % b)]]
      simp

theorem toDigitsCore_val (fuel : Nat) :
    ∀ n : Nat, n < fuel →
      (Nat.toDigitsCore 10 fuel n []).foldl (fun a c => a * 10 + (c.toNat - 48)) 0 = n := by
  induction fuel with
  | zero => intro n h; omega
  | succ fuel ih =>
    intro n h
    have hmod : (Nat.digitChar (n % 10)).toNat - 48 = n % 10 := by
      have h10 : n % 10 < 10 := Nat.mod_lt _ (by norm_num)
      interval_cases hm : (n % 10) <;> simp_all <;> decide
    simp only [Nat.toDigitsCore]
    split
    · rename_i h0
      have hn : n < 10 := by
        rcases Nat.lt_or_ge n 10 with h' | h'
        · exact h'
        · exact absurd h0 (by
            have := Nat.div_le_div_right (c := 10) h'
            simp at this
            omega)
      simp only [List.foldl]
      omega
    · rename_i h0
      rw [toDigitsCore_append, List.foldl_append]
      have hpos : 10 ≤ n := by
        by_contra hlt
        exact h0 (Nat.div_eq_of_lt (by omega))
      have hlt : n / 10 < fuel := by
        have := Nat.div_lt_self (by omega : 0 < n) (by norm_num : 1 < 10)
        omega
      rw [ih (n / 10) hlt]
      simp only [List.foldl]
      omega

theorem repr_injective (m n : Nat) (h : Nat.repr m = Nat.repr n) : m = n := by
  have hd : Nat.toDigits 10 m = Nat.toDigits 10 n := by
    have hc := congrArg String.data h
    rwa [repr_data, repr_data] at hc
  have hm := toDigitsCore_val (m + 1) m (by omega)
  have hn := toDigitsCore_val (n + 1) n (by omega)
  have hdm : Nat.toDigits 10 m = Nat.toDigitsCore 10 (m + 1) m [] := rfl
  have hdn : Nat.toDigits 10 n = Nat.toDigitsCore 10 (n + 1) n [] := rfl
  rw [← hdm] at hm
  rw [← hdn] at hn
  rw [hd, hn] at hm
  exact hm.symm

/-! Bridge between the string-keyed encoder and its path-level mirror. -/

theorem appendArr_eq (l : List SVal)
    (IH : ∀ x ∈ l, ∀ key, appendValue key x =
      (pathPairs x).map (fun p => (extendKey key p.1, p.2))) :
    ∀ (key : String) (i : Nat),
      appendArr key i l = (pathArr i l).map (fun p => (extendKey key p.1, p.2)) := by
  induction l with
  | nil => intro key i; rfl
  | cons x xs ihl =>
    intro key i
    show appendValue (key ++ "[" ++ Nat.repr i ++ "]") x ++ appendArr key (i + 1) xs = _
    rw [IH x (by simp) _, ihl (fun y hy k => IH y (by simp [hy]) k) key (i + 1)]
    show _ = ((pathPairs x).map (fun p => (Nat.repr i :: p.1, p.2)) ++
        pathArr (i + 1) xs).map _
    rw [List.map_append, List.map_map]
    rfl

theorem appendObj_eq (l : List (String × SVal))
    (IH : ∀ p ∈ l, ∀ key, appendValue key p.2 =
      (pathPairs p.2).map (fun q => (extendKey key q.1, q.2))) :
    ∀ key : String,
      appendObj key l = (pathObj l).map (fun p => (extendKey key p.1, p.2)) := by
  induction l with
  | nil => intro key; rfl
  | cons p xs ihl =>
    obtain ⟨k₁, x⟩ := p
    intro key
    show appendValue (key ++ "[" ++ k₁ ++ "]") x ++ appendObj key xs = _
    rw [IH (k₁, x) (by simp) _, ihl (fun q hq k => IH q (by simp [hq]) k) key]
    show _ = ((pathPairs x).map (fun q => (k₁ :: q.1, q.2)) ++ pathObj xs).map _
    rw [List.map_append, List.map_map]
    rfl

/-- The encoder's pairs are the path-level pairs with keys flattened by
`extendKey`. -/
theorem appendValue_eq_pathPairs (v : SVal) :
    ∀ key, appendValue key v = (pathPairs v).map (fun p => (extendKey key p.1, p.2)) := by
  induction v using SVal.myInduction with
  | hnull => intro key; rfl
  | hstr s => intro key; rfl
  | harr l ihm =>
    intro key
    show appendArr key 0 l = (pathArr 0 l).map _
    exact appendArr_eq l ihm key 0
  | hobj l ihm =>
    intro key
    show appendObj key l = (pathObj l).map _
    exact appendObj_eq l ihm key

theorem pathArr_snd (l : List SVal)
    (IH : ∀ x ∈ l, (pathPairs x).map Prod.snd = leafValues x) :
    ∀ i : Nat, (pathArr i l).map Prod.snd = leafArr l := by
  induction l with
  | nil => intro i; rfl
  | cons x xs ihl =>
    intro i
    show ((pathPairs x).map (fun p => (Nat.repr i :: p.1, p.2)) ++
        pathArr (i + 1) xs).map Prod.snd = leafValues x ++ leafArr xs
    rw [List.map_append, List.map_map, ihl (fun y hy => IH y (by simp [hy])) (i + 1)]
    congr 1
    exact IH x (by simp)

theorem pathObj_snd (l : List (String × SVal))
    (IH : ∀ p ∈ l, (pathPairs p.2).map Prod.snd = leafValues p.2) :
    (pathObj l).map Prod.snd = leafObj l := by
  induction l with
  | nil => rfl
  | cons p xs ihl =>
    obtain ⟨k₁, x⟩ := p
    show ((pathPairs x).map (fun q => (k₁ :: q.1, q.2)) ++ pathObj xs).map Prod.snd =
      leafValues x ++ leafObj xs
    rw [List.map_append, List.map_map, ihl (fun q hq => IH q (by simp [hq]))]
    congr 1
    exact IH (k₁, x) (by simp)

/-- The emitted values are exactly the pre-order scalar leaf values. -/
theorem pathPairs_snd (v : SVal) : (pathPairs v).map Prod.snd = leafValues v := by
  induction v using SVal.myInduction with
  | hnull => rfl
  | hstr s => rfl
  | harr l ihm => exact pathArr_snd l ihm 0
  | hobj l ihm => exact pathObj_snd l ihm

/-- C6: the encoder walks the structure depth-first in pre-order and emits
exactly one flat pair per scalar leaf, in traversal order, while
absent-markers emit no pair: the emitted values are exactly the pre-order
leaf values (hence one pair per leaf), and the worked example emits its
three pairs in traversal order. -/
theorem C6_one_pair_per_leaf_preorder :
    (∀ (key : String) (v : SVal),
      (appendValue key v).map Prod.snd = leafValues v ∧
      (appendValue key v).length = (leafValues v).length) ∧
    encode [("address", .obj [("street", .str "s"),
        ("tags", .arr [.str "foo", .str "bar"])])] =
      [("address[street]", "s"), ("address[tags][0]", "foo"),
       ("address[tags][1]", "bar")] := by
  constructor
  · intro key v
    have h1 : (appendValue key v).map Prod.snd = leafValues v := by
      rw [appendValue_eq_pathPairs v key, List.map_map]
      have h2 : (Prod.snd ∘ fun p : List String × String => (extendKey key p.1, p.2)) =
          Prod.snd := rfl
      rw [h2, pathPairs_snd]
    exact ⟨h1, by rw [← h1, List.length_map]⟩
  · rfl

/-! Round-trip machinery: folding the path-level pairs into the result. -/

/-- Path-level form of the decode fold from a given starting outcome. -/
def insertAllRes (r : Res) (l : List (List String × String)) : Res :=
  l.foldl (fun r p => r.bind (fun s => setNestedValue s p.1 p.2)) r

/-- Path-level form of the decode fold: insert each (segment path, value)
pair in order. -/
def insertAll (s : DVal) (l : List (List String × String)) : Res :=
  insertAllRes (.ok s) l

/-- Entry contributed to the decoded parent by one child: nothing when the
child normalizes away, one binding otherwise. -/
def pruneEntry (k : String) (x : SVal) : List (String × DVal) :=
  match normalize x with
  | none => []
  | some d => [(k, d)]

theorem insertAllRes_throw (l : List (List String × String)) :
    insertAllRes .throw l = .throw := by
  induction l with
  | nil => rfl
  | cons p rest ih => exact ih

theorem insertAllRes_unknown (l : List (List String × String)) :
    insertAllRes .unknown l = .unknown := by
  induction l with
  | nil => rfl
  | cons p rest ih => exact ih

theorem insertAll_cons (s : DVal) (p : List String × String)
    (l : List (List String × String)) :
    insertAll s (p :: l) = (setNestedValue s p.1 p.2).bind (fun t => insertAll t l) := by
  show insertAllRes ((Res.ok s).bind (fun t => setNestedValue t p.1 p.2)) l = _
  rw [Res.ok_bind]
  cases setNestedValue s p.1 p.2 with
  | ok t => rfl
  | throw => exact insertAllRes_throw l
  | unknown => exact insertAllRes_unknown l

theorem insertAll_append (s : DVal) (l₁ l₂ : List (List String × String)) :
    insertAll s (l₁ ++ l₂) = (insertAll s l₁).bind (fun t => insertAll t l₂) := by
  have hfold : insertAll s (l₁ ++ l₂) = insertAllRes (insertAllRes (.ok s) l₁) l₂ := by
    simp only [insertAll, insertAllRes, List.foldl_append]
  rw [hfold]
  cases h : insertAll s l₁ with
  | ok t =>
    rw [show insertAllRes (Res.ok s) l₁ = Res.ok t from h]
    rfl
  | throw =>
    rw [show insertAllRes (Res.ok s) l₁ = Res.throw from h, insertAllRes_throw]
    rfl
  | unknown =>
    rw [show insertAllRes (Res.ok s) l₁ = Res.unknown from h, insertAllRes_unknown]
    rfl

theorem decodeFrom_eq_insertAll (pairs : List (String × String)) :
    ∀ s, decodeFrom s pairs = insertAll s (pairs.map (fun p => (parsePath p.1, p.2))) := by
  induction pairs with
  | nil => intro s; rfl
  | cons p rest ih =>
    intro s
    rw [decodeFrom_cons, List.map_cons, insertAll_cons]
    cases hs : setNestedValue s (parsePath p.1) p.2 with
    | ok t =>
      rw [Res.ok_bind, Res.ok_bind]
      exact ih t
    | throw => rfl
    | unknown => rfl

theorem wfArr_cons (x : SVal) (xs : List SVal) :
    wfArr (x :: xs) = (wfVal x && wfArr xs) := rfl

theorem wfObj_cons (k : String) (x : SVal) (xs : List (String × SVal)) :
    wfObj ((k, x) :: xs) = (isName k && isPlainObjKey k && wfVal x && wfObj xs) := rfl

theorem wfVal_arr (l : List SVal) : wfVal (.arr l) = wfArr l := rfl

theorem wfVal_obj (l : List (String × SVal)) :
    wfVal (.obj l) = (nodupKeys (l.map Prod.fst) && wfObj l) := rfl

theorem pathArr_cons (i : Nat) (x : SVal) (xs : List SVal) :
    pathArr i (x :: xs) =
      (pathPairs x).map (fun p => (Nat.repr i :: p.1, p.2)) ++ pathArr (i + 1) xs := rfl

theorem pathObj_cons (k : String) (x : SVal) (xs : List (String × SVal)) :
    pathObj ((k, x) :: xs) =
      (pathPairs x).map (fun p => (k :: p.1, p.2)) ++ pathObj xs := rfl

theorem normalizeArr_cons_none (i : Nat) (x : SVal) (xs : List SVal)
    (h : normalize x = none) : normalizeArr i (x :: xs) = normalizeArr (i + 1) xs := by
  simp [normalizeArr, h]

theorem normalizeArr_cons_some (i : Nat) (x : SVal) (xs : List SVal) (d : DVal)
    (h : normalize x = some d) :
    normalizeArr i (x :: xs) = (Nat.repr i, d) :: normalizeArr (i + 1) xs := by
  simp [normalizeArr, h]

theorem normalizeObj_cons_none (k : String) (x : SVal) (xs : List (String × SVal))
    (h : normalize x = none) : normalizeObj ((k, x) :: xs) = normalizeObj xs := by
  simp [normalizeObj, h]

theorem normalizeObj_cons_some (k : String) (x : SVal) (xs : List (String × SVal))
    (d : DVal) (h : normalize x = some d) :
    normalizeObj ((k, x) :: xs) = (k, d) :: normalizeObj xs := by
  simp [normalizeObj, h]

theorem normalizeArr_eq_pruneEntry (i : Nat) (x : SVal) (xs : List SVal) :
    normalizeArr i (x :: xs) = pruneEntry (Nat.repr i) x ++ normalizeArr (i + 1) xs := by
  cases h : normalize x with
  | none => rw [normalizeArr_cons_none i x xs h]; simp [pruneEntry, h]
  | some d => rw [normalizeArr_cons_some i x xs d h]; simp [pruneEntry, h]

theorem normalizeObj_eq_pruneEntry (k : String) (x : SVal) (xs : List (String × SVal)) :
    normalizeObj ((k, x) :: xs) = pruneEntry k x ++ normalizeObj xs := by
  cases h : normalize x with
  | none => rw [normalizeObj_cons_none k x xs h]; simp [pruneEntry, h]
  | some d => rw [normalizeObj_cons_some k x xs d h]; simp [pruneEntry, h]

theorem normalize_arr_of_nil (l : List SVal) (h : normalizeArr 0 l = []) :
    normalize (.arr l) = none := by
  simp [normalize, h]

theorem normalize_arr_of_cons (l : List SVal) (e : String × DVal)
    (es' : List (String × DVal)) (h : normalizeArr 0 l = e :: es') :
    normalize (.arr l) = some (.coll true (e :: es')) := by
  simp [normalize, h]

theorem normalize_obj_of_nil (l : List (String × SVal)) (h : normalizeObj l = []) :
    normalize (.obj l) = none := by
  simp [normalize, h]

theorem normalize_obj_of_cons (l : List (String × SVal)) (e : String × DVal)
    (es' : List (String × DVal)) (h : normalizeObj l = e :: es') :
    normalize (.obj l) = some (.coll false (e :: es')) := by
  simp [normalize, h]

theorem pathPairs_null : pathPairs .null = [] := rfl

theorem pathPairs_str (s : String) : pathPairs (.str s) = [([], s)] := rfl

theorem pathPairs_arr (l : List SVal) : pathPairs (.arr l) = pathArr 0 l := rfl

theorem pathPairs_obj (l : List (String × SVal)) : pathPairs (.obj l) = pathObj l := rfl

theorem pathArr_nil (i : Nat) : pathArr i [] = [] := rfl

theorem pathObj_nil : pathObj [] = [] := rfl

theorem normalizeArr_nil (i : Nat) : normalizeArr i [] = [] := rfl

theorem normalizeObj_nil : normalizeObj [] = [] := rfl

theorem wfVal_null : wfVal .null = false := rfl

theorem wfVal_str (s : String) : wfVal (.str s) = true := rfl

/-- Every pair of the array branch carries a decimal index as its first
segment. -/
theorem pathArr_head (l : List SVal) :
    ∀ (i : Nat) (p : List String × String), p ∈ pathArr i l →
      ∃ j q', p.1 = Nat.repr j :: q' := by
  induction l with
  | nil => intro i p hp; rw [pathArr_nil] at hp; exact absurd hp (by simp)
  | cons x xs ihl =>
    intro i p hp
    rw [pathArr_cons] at hp
    rcases List.mem_append.mp hp with hp1 | hp2
    · obtain ⟨q, _, rfl⟩ := List.mem_map.mp hp1
      exact ⟨i, q.1, rfl⟩
    · exact ihl (i + 1) p hp2

/-- Every pair of the object branch carries one of the object's keys as its
first segment; under well-formedness that key is a name. -/
theorem pathObj_head (l : List (String × SVal)) :
    ∀ hwf : wfObj l = true, ∀ p ∈ pathObj l,
      ∃ k₂ q', p.1 = k₂ :: q' ∧ isName k₂ = true := by
  induction l with
  | nil => intro _ p hp; rw [pathObj_nil] at hp; exact absurd hp (by simp)
  | cons e xs ihl =>
    obtain ⟨k₁, x⟩ := e
    intro hwf p hp
    rw [wfObj_cons] at hwf
    simp only [Bool.and_eq_true] at hwf
    rw [pathObj_cons] at hp
    rcases List.mem_append.mp hp with hp1 | hp2
    · obtain ⟨q, _, rfl⟩ := List.mem_map.mp hp1
      exact ⟨k₁, q.1, rfl, hwf.1.1.1⟩
    · exact ihl hwf.2 p hp2

theorem pathArr_segs (l : List SVal)
    (IH : ∀ x ∈ l, wfVal x = true → ∀ p ∈ pathPairs x, ∀ s ∈ p.1, isSeg s = true) :
    ∀ i, wfArr l = true → ∀ p ∈ pathArr i l, ∀ s ∈ p.1, isSeg s = true := by
  induction l with
  | nil => intro i _ p hp; rw [pathArr_nil] at hp; exact absurd hp (by simp)
  | cons x xs ihl =>
    intro i hwf p hp
    rw [wfArr_cons, Bool.and_eq_true] at hwf
    rw [pathArr_cons] at hp
    rcases List.mem_append.mp hp with hp1 | hp2
    · obtain ⟨q, hq, rfl⟩ := List.mem_map.mp hp1
      intro s hs
      rcases List.mem_cons.mp hs with rfl | hs'
      · exact isSeg_repr i
      · exact IH x (by simp) hwf.1 q hq s hs'
    · exact ihl (fun y hy => IH y (by simp [hy])) (i + 1) hwf.2 p hp2

theorem pathObj_segs (l : List (String × SVal))
    (IH : ∀ e ∈ l, wfVal e.2 = true → ∀ p ∈ pathPairs e.2, ∀ s ∈ p.1, isSeg s = true) :
    wfObj l = true → ∀ p ∈ pathObj l, ∀ s ∈ p.1, isSeg s = true := by
  induction l with
  | nil => intro _ p hp; rw [pathObj_nil] at hp; exact absurd hp (by simp)
  | cons e xs ihl =>
    obtain ⟨k₁, x⟩ := e
    intro hwf p hp
    rw [wfObj_cons] at hwf
    simp only [Bool.and_eq_true] at hwf
    rw [pathObj_cons] at hp
    rcases List.mem_append.mp hp with hp1 | hp2
    · obtain ⟨q, hq, rfl⟩ := List.mem_map.mp hp1
      intro s hs
      rcases List.mem_cons.mp hs with rfl | hs'
      · exact isName_isSeg _ hwf.1.1.1
      · exact IH (k₁, x) (by simp) hwf.1.2 q hq s hs'
    · exact ihl (fun y hy => IH y (by simp [hy])) hwf.2 p hp2

/-- Under well-formedness, every segment of every emitted path is a valid
segment (non-empty and bracket-free). -/
theorem pathPairs_segs (v : SVal) :
    wfVal v = true → ∀ p ∈ pathPairs v, ∀ s ∈ p.1, isSeg s = true := by
  induction v using SVal.myInduction with
  | hnull => intro _ p hp; rw [pathPairs_null] at hp; exact absurd hp (by simp)
  | hstr t =>
    intro _ p hp
    rw [pathPairs_str] at hp
    obtain rfl : p = ([], t) := by simpa using hp
    intro s hs
    exact absurd hs (by simp)
  | harr l ihm =>
    intro hwf
    rw [wfVal_arr] at hwf
    rw [pathPairs_arr]
    exact pathArr_segs l ihm 0 hwf
  | hobj l ihm =>
    intro hwf
    rw [wfVal_obj, Bool.and_eq_true] at hwf
    rw [pathPairs_obj]
    exact pathObj_segs l ihm hwf.2

theorem pathArr_nil_iff (l : List SVal)
    (IH : ∀ x ∈ l, (pathPairs x = [] ↔ normalize x = none)) :
    ∀ i, (pathArr i l = [] ↔ normalizeArr i l = []) := by
  induction l with
  | nil => intro i; rw [pathArr_nil, normalizeArr_nil]; simp
  | cons x xs ihl =>
    intro i
    rw [pathArr_cons]
    constructor
    · intro h
      obtain ⟨h1, h2⟩ := List.append_eq_nil.mp h
      have hx : pathPairs x = [] := by
        cases hpp : pathPairs x with
        | nil => rfl
        | cons a as => rw [hpp] at h1; simp at h1
      rw [normalizeArr_cons_none i x xs ((IH x (by simp)).mp hx)]
      exact (ihl (fun y hy => IH y (by simp [hy])) (i + 1)).mp h2
    · intro h
      cases hn : normalize x with
      | some d =>
        rw [normalizeArr_cons_some i x xs d hn] at h
        exact absurd h (by simp)
      | none =>
        rw [normalizeArr_cons_none i x xs hn] at h
        have hx : pathPairs x = [] := (IH x (by simp)).mpr hn
        rw [hx]
        simp [(ihl (fun y hy => IH y (by simp [hy])) (i + 1)).mpr h]

theorem pathObj_nil_iff (l : List (String × SVal))
    (IH : ∀ e ∈ l, (pathPairs e.2 = [] ↔ normalize e.2 = none)) :
    (pathObj l = [] ↔ normalizeObj l = []) := by
  induction l with
  | nil => rw [pathObj_nil, normalizeObj_nil]; simp
  | cons e xs ihl =>
    obtain ⟨k₁, x⟩ := e
    rw [pathObj_cons]
    constructor
    · intro h
      obtain ⟨h1, h2⟩ := List.append_eq_nil.mp h
      have hx : pathPairs x = [] := by
        cases hpp : pathPairs x with
        | nil => rfl
        | cons a as => rw [hpp] at h1; simp at h1
      rw [normalizeObj_cons_none k₁ x xs ((IH (k₁, x) (by simp)).mp hx)]
      exact (ihl (fun y hy => IH y (by simp [hy]))).mp h2
    · intro h
      cases hn : normalize x with
      | some d =>
        rw [normalizeObj_cons_some k₁ x xs d hn] at h
        exact absurd h (by simp)
      | none =>
        rw [normalizeObj_cons_none k₁ x xs hn] at h
        have hx : pathPairs x = [] := (IH (k₁, x) (by simp)).mpr hn
        rw [hx]
        simp [(ihl (fun y hy => IH y (by simp [hy]))).mpr h]

/-- A structured value emits no pairs exactly when it normalizes away. -/
theorem pathPairs_nil_iff (v : SVal) : pathPairs v = [] ↔ normalize v = none := by
  induction v using SVal.myInduction with
  | hnull => exact ⟨fun _ => rfl, fun _ => rfl⟩
  | hstr t =>
    rw [pathPairs_str, show normalize (.str t) = some (.str t) from rfl]
    simp
  | harr l ihm =>
    rw [pathPairs_arr]
    have hiff := pathArr_nil_iff l ihm 0
    cases hn : normalizeArr 0 l with
    | nil => rw [normalize_arr_of_nil l hn]; simp [hiff, hn]
    | cons e es' => rw [normalize_arr_of_cons l e es' hn]; simp [hiff, hn]
  | hobj l ihm =>
    rw [pathPairs_obj]
    have hiff := pathObj_nil_iff l ihm
    cases hn : normalizeObj l with
    | nil => rw [normalize_obj_of_nil l hn]; simp [hiff, hn]
    | cons e es' => rw [normalize_obj_of_cons l e es' hn]; simp [hiff, hn]

/-- None of the inherited Array.prototype member names is all-digits. -/
theorem arrProtoKeys_no_index : (protoKeys true).all (fun s => !(isIndex s)) = true := by
  decide

/-- A decimal index never collides with an inherited array member name, so
index keys are plain own-property writes on arrays. -/
theorem protoKeys_not_contains_repr (i : Nat) :
    (protoKeys true).contains (Nat.repr i) = false := by
  cases h : (protoKeys true).contains (Nat.repr i) with
  | false => rfl
  | true =>
    have hm : Nat.repr i ∈ protoKeys true := by simpa using h
    have hall := arrProtoKeys_no_index
    rw [List.all_eq_true] at hall
    have hx := hall _ hm
    rw [isIndex_repr i] at hx
    exact absurd hx (by simp)

/-- A key accepted by `isPlainObjKey` means nothing on Object.prototype. -/
theorem isPlainObjKey_eq (k : String) (h : isPlainObjKey k = true) :
    (protoKeys false).contains k = false := by
  simpa [isPlainObjKey] using h

/-- Threading lemma: once the group's child value exists (truthy) at key
`k`, inserting the group's remaining pairs (all prefixed by `k`) only
rewrites the child, leaving the surrounding entries fixed. -/
theorem insertAll_thread (l : List (List String × String)) :
    ∀ (b : Bool) (c₀ : DVal) (es : List (String × DVal)) (k : String),
      lookupEntry es k = none →
      truthy c₀ = true →
      (∀ p ∈ l, p.1 ≠ []) →
      insertAll (.coll b (es ++ [(k, c₀)])) (l.map (fun p => (k :: p.1, p.2))) =
        (insertAll c₀ l).map (fun cf => .coll b (es ++ [(k, cf)])) := by
  induction l with
  | nil => intro b c₀ es k _ _ _; rfl
  | cons p l' ih =>
    intro b c₀ es k hfresh htr hne
    obtain ⟨q, v⟩ := p
    have hq : q ≠ [] := hne (q, v) (by simp)
    obtain ⟨k2, qr, rfl⟩ : ∃ k2 qr, q = k2 :: qr := by
      cases q with
      | nil => exact absurd rfl hq
      | cons k2 qr => exact ⟨k2, qr, rfl⟩
    rw [List.map_cons, insertAll_cons]
    have hlk : lookupEntry (es ++ [(k, c₀)]) k = some c₀ := by
      rw [lookupEntry_append_of_none es _ k hfresh]
      simp [lookupEntry]
    rw [setNestedValue_cons_step b _ k k2 qr v c₀
      (stepChild_of_truthy b _ k k2 c₀ hlk htr)]
    rw [insertAll_cons]
    cases hs : setNestedValue c₀ (k2 :: qr) v with
    | throw => rfl
    | unknown => rfl
    | ok c₁ =>
      simp only [Res.map_ok, Res.ok_bind]
      rw [setEntry_append_last es k _ _ hfresh]
      exact ih b c₁ es k hfresh
        (setNestedValue_ok_truthy c₀ (k2 :: qr) v c₁ htr hs)
        (fun p hp => hne p (by simp [hp]))

/-- Inserting a whole group of pairs prefixed by a fresh plain key `k`
creates the child container determined by the first pair's leading segment
and then threads the group through it. -/
theorem insertAll_fresh_group (k2 : String) (qr : List String) (v₁ : String)
    (l : List (List String × String)) (b : Bool) (es : List (String × DVal))
    (k : String) (hfresh : lookupEntry es k = none)
    (hplain : (protoKeys b).contains k = false)
    (hne : ∀ p ∈ l, p.1 ≠ []) :
    insertAll (.coll b es) (((k2 :: qr, v₁) :: l).map (fun p => (k :: p.1, p.2))) =
      (insertAll (freshChild k2) ((k2 :: qr, v₁) :: l)).map
        (fun cf => .coll b (es ++ [(k, cf)])) := by
  rw [List.map_cons, insertAll_cons, insertAll_cons]
  rw [setNestedValue_cons_step b es k k2 qr v₁ _
    (stepChild_of_absent_plain b es k k2 hfresh hplain)]
  cases hs : setNestedValue (freshChild k2) (k2 :: qr) v₁ with
  | throw => rfl
  | unknown => rfl
  | ok c₁ =>
    simp only [Res.map_ok, Res.ok_bind]
    rw [setEntry_eq_append es k _ hfresh]
    exact insertAll_thread l b c₁ es k hfresh
      (setNestedValue_ok_truthy (freshChild k2) (k2 :: qr) v₁ c₁ (freshChild_truthy k2) hs)
      hne

/-- Statement of the group-insertion property of one structured value `x`:
folding the pairs of `x`, all prefixed by a key `k` that is fresh in the
current container and carries no inherited meaning for the container's
kind, appends exactly the entry `x` normalizes to (or nothing when `x`
normalizes away). -/
def insertsGroup (x : SVal) : Prop :=
  ∀ (b : Bool) (es : List (String × DVal)) (k : String),
    lookupEntry es k = none → (protoKeys b).contains k = false → wfVal x = true →
    insertAll (.coll b es) ((pathPairs x).map (fun p => (k :: p.1, p.2))) =
      .ok (.coll b (es ++ pruneEntry k x))

/-- Folding all pairs of the elements of an array into its (array) child
container appends exactly the normalized entries. -/
theorem insertAll_pathArr (l : List SVal) (IH : ∀ x ∈ l, insertsGroup x) :
    ∀ (i : Nat) (es : List (String × DVal)),
      wfArr l = true →
      (∀ j, i ≤ j → lookupEntry es (Nat.repr j) = none) →
      insertAll (.coll true es) (pathArr i l) =
        .ok (.coll true (es ++ normalizeArr i l)) := by
  induction l with
  | nil =>
    intro i es _ _
    rw [pathArr_nil, normalizeArr_nil, List.append_nil]
    rfl
  | cons x xs ihl =>
    intro i es hwf hfresh
    rw [wfArr_cons, Bool.and_eq_true] at hwf
    rw [pathArr_cons, insertAll_append]
    rw [IH x (by simp) true es (Nat.repr i) (hfresh i (le_refl i))
      (protoKeys_not_contains_repr i) hwf.1]
    simp only [Res.ok_bind]
    rw [ihl (fun y hy => IH y (by simp [hy])) (i + 1) (es ++ pruneEntry (Nat.repr i) x)
      hwf.2 ?_]
    · rw [normalizeArr_eq_pruneEntry, List.append_assoc]
    · intro j hj
      rw [lookupEntry_append_of_none es _ _ (hfresh j (by omega))]
      cases hn : normalize x with
      | none => simp [pruneEntry, hn, lookupEntry]
      | some d =>
        simp only [pruneEntry, hn, lookupEntry]
        have hne : ¬(Nat.repr i = Nat.repr j) := fun hh => by
          have := repr_injective i j hh
          omega
        simp [hne]

/-- Folding all pairs of the entries of an object into its (object or top)
container appends exactly the normalized entries. -/
theorem insertAll_pathObj (l : List (String × SVal)) (IH : ∀ e ∈ l, insertsGroup e.2) :
    ∀ (es : List (String × DVal)),
      wfObj l = true →
      nodupKeys (l.map Prod.fst) = true →
      (∀ e ∈ l, lookupEntry es e.1 = none) →
      insertAll (.coll false es) (pathObj l) = .ok (.coll false (es ++ normalizeObj l)) := by
  induction l with
  | nil =>
    intro es _ _ _
    rw [pathObj_nil, normalizeObj_nil, List.append_nil]
    rfl
  | cons e xs ihl =>
    obtain ⟨k₁, x⟩ := e
    intro es hwf hnd hfresh
    rw [wfObj_cons] at hwf
    simp only [Bool.and_eq_true] at hwf
    simp only [List.map_cons, nodupKeys, Bool.and_eq_true, Bool.not_eq_true'] at hnd
    rw [pathObj_cons, insertAll_append]
    rw [IH (k₁, x) (by simp) false es k₁ (hfresh (k₁, x) (by simp))
      (isPlainObjKey_eq k₁ hwf.1.1.2) hwf.1.2]
    simp only [Res.ok_bind]
    rw [ihl (fun q hq => IH q (by simp [hq])) (es ++ pruneEntry k₁ x) hwf.2 hnd.2 ?_]
    · rw [normalizeObj_eq_pruneEntry, List.append_assoc]
    · intro q hq
      rw [lookupEntry_append_of_none es _ _ (hfresh q (by simp [hq]))]
      cases hn : normalize x with
      | none => simp [pruneEntry, hn, lookupEntry]
      | some d =>
        simp only [pruneEntry, hn, lookupEntry]
        have hq1 : ¬(k₁ = q.1) := by
          intro hh
          have hmem : k₁ ∈ xs.map Prod.fst := by
            rw [hh]
            exact List.mem_map.mpr ⟨q, hq, rfl⟩
          have hcont : (xs.map Prod.fst).contains k₁ = false := hnd.1
          have htrue : (xs.map Prod.fst).contains k₁ = true := List.elem_iff.mpr hmem
          rw [hcont] at htrue
          exact absurd htrue (by simp)
        simp [hq1]

/-- Every well-formed structured value satisfies the group-insertion
property: its pairs, inserted under a fresh plain key, build exactly its
normalized form. -/
theorem insertsGroup_all (v : SVal) : insertsGroup v := by
  induction v using SVal.myInduction with
  | hnull =>
    intro b es k _ _ hwf
    rw [wfVal_null] at hwf
    exact absurd hwf (by simp)
  | hstr s =>
    intro b es k hfresh hplain _
    show insertAll (.coll b es) [([k], s)] = .ok (.coll b (es ++ pruneEntry k (.str s)))
    rw [insertAll_cons, setNestedValue_last_plain b es k s hplain]
    simp only [Res.ok_bind]
    rw [setEntry_eq_append es k _ hfresh]
    rfl
  | harr l ihm =>
    intro b es k hfresh hplain hwf
    rw [wfVal_arr] at hwf
    rw [pathPairs_arr]
    cases hp : pathArr 0 l with
    | nil =>
      have hnorm : normalizeArr 0 l = [] :=
        (pathArr_nil_iff l (fun x _ => pathPairs_nil_iff x) 0).mp hp
      have hpe : pruneEntry k (.arr l) = [] := by
        simp [pruneEntry, normalize_arr_of_nil l hnorm]
      rw [hpe, List.append_nil]
      rfl
    | cons p₁ rest =>
      obtain ⟨q₁, v₁⟩ := p₁
      obtain ⟨j, q', hq⟩ := pathArr_head l 0 (q₁, v₁) (by rw [hp]; simp)
      simp only at hq
      subst hq
      have hne : ∀ p ∈ rest, p.1 ≠ [] := by
        intro p hpm
        obtain ⟨j', q'', hq'⟩ := pathArr_head l 0 p (by rw [hp]; simp [hpm])
        rw [hq']
        simp
      rw [insertAll_fresh_group (Nat.repr j) q' v₁ rest b es k hfresh hplain hne]
      rw [show freshChild (Nat.repr j) = DVal.coll true [] from by
        simp [freshChild, isIndex_repr j]]
      rw [← hp]
      rw [insertAll_pathArr l ihm 0 [] hwf (fun j' _ => rfl)]
      rw [List.nil_append]
      have hnn : normalizeArr 0 l ≠ [] := by
        intro hh
        have hnil := (pathArr_nil_iff l (fun x _ => pathPairs_nil_iff x) 0).mpr hh
        rw [hp] at hnil
        exact absurd hnil (by simp)
      obtain ⟨e, es'', hcons⟩ : ∃ e es'', normalizeArr 0 l = e :: es'' := by
        cases hn : normalizeArr 0 l with
        | nil => exact absurd hn hnn
        | cons e es'' => exact ⟨e, es'', rfl⟩
      have hpe : pruneEntry k (.arr l) = [(k, .coll true (normalizeArr 0 l))] := by
        simp [pruneEntry, normalize_arr_of_cons l e es'' hcons, hcons]
      rw [hpe]
      rfl
  | hobj l ihm =>
    intro b es k hfresh hplain hwf
    rw [wfVal_obj, Bool.and_eq_true] at hwf
    rw [pathPairs_obj]
    cases hp : pathObj l with
    | nil =>
      have hnorm : normalizeObj l = [] :=
        (pathObj_nil_iff l (fun e _ => pathPairs_nil_iff e.2)).mp hp
      have hpe : pruneEntry k (.obj l) = [] := by
        simp [pruneEntry, normalize_obj_of_nil l hnorm]
      rw [hpe, List.append_nil]
      rfl
    | cons p₁ rest =>
      obtain ⟨q₁, v₁⟩ := p₁
      obtain ⟨k₂, q', hq, hk₂⟩ := pathObj_head l hwf.2 (q₁, v₁) (by rw [hp]; simp)
      simp only at hq
      subst hq
      have hne : ∀ p ∈ rest, p.1 ≠ [] := by
        intro p hpm
        obtain ⟨k₃, q'', hq', _⟩ := pathObj_head l hwf.2 p (by rw [hp]; simp [hpm])
        rw [hq']
        simp
      rw [insertAll_fresh_group k₂ q' v₁ rest b es k hfresh hplain hne]
      rw [show freshChild k₂ = DVal.coll false [] from by
        simp [freshChild, isName_not_isIndex k₂ hk₂]]
      rw [← hp]
      rw [insertAll_pathObj l ihm [] hwf.2 hwf.1 (fun e _ => rfl)]
      rw [List.nil_append]
      have hnn : normalizeObj l ≠ [] := by
        intro hh
        have hnil := (pathObj_nil_iff l (fun e _ => pathPairs_nil_iff e.2)).mpr hh
        rw [hp] at hnil
        exact absurd hnil (by simp)
      obtain ⟨e, es'', hcons⟩ : ∃ e es'', normalizeObj l = e :: es'' := by
        cases hn : normalizeObj l with
        | nil => exact absurd hn hnn
        | cons e es'' => exact ⟨e, es'', rfl⟩
      have hpe : pruneEntry k (.obj l) = [(k, .coll false (normalizeObj l))] := by
        simp [pruneEntry, normalize_obj_of_cons l e es'' hcons, hcons]
      rw [hpe]
      rfl

/-- Parsing the encoder's raw keys recovers exactly the path-level pairs. -/
theorem encode_parse (data : List (String × SVal)) :
    wfObj data = true →
    (encode data).map (fun p => (parsePath p.1, p.2)) = pathObj data := by
  induction data with
  | nil => intro _; rfl
  | cons e xs ih =>
    obtain ⟨k, x⟩ := e
    intro hwf
    rw [wfObj_cons] at hwf
    simp only [Bool.and_eq_true] at hwf
    show (appendValue k x ++ encode xs).map (fun p => (parsePath p.1, p.2)) = _
    rw [List.map_append, ih hwf.2, pathObj_cons]
    congr 1
    rw [appendValue_eq_pathPairs x k, List.map_map]
    apply List.map_congr_left
    intro q hq
    show (parsePath (extendKey k q.1), q.2) = (k :: q.1, q.2)
    rw [parsePath_extendKey k q.1 (isName_isSeg k hwf.1.1.1)
      (fun s hs => pathPairs_segs x hwf.1.2 q hq s hs)]

/-- C1 counterexample: "constructor" is a name (non-empty, not all digits,
bracket-free), and the structured value with the single entry
constructor -> (object with b -> "x") has no absent-markers; yet it does
not survive the round trip.  Its encoding is the single pair
("constructor[b]", "x"), and the decode walk, finding no own property
"constructor" on the empty result, reads the inherited truthy
Object.prototype.constructor and descends into that host object instead
of creating a child container in the result tree — the model's walk
escapes (Res.unknown), and the decoded result is not the encoded
structure (in a JavaScript run the result object stays empty). -/
theorem C1_counterexample :
    isName "constructor" = true ∧
    decode (encode [("constructor", SVal.obj [("b", SVal.str "x")])]) = .unknown ∧
    decode (encode [("constructor", SVal.obj [("b", SVal.str "x")])]) ≠
      .ok (.coll false
        (normalizeObj [("constructor", SVal.obj [("b", SVal.str "x")])])) :=
  ⟨rfl, rfl, fun h => Res.noConfusion h⟩

/-- C1 (amended): decoding the flat pairs produced by encoding a
well-formed structured value (no absent-markers, object keys pairwise
distinct names that carry no inherited meaning on Object.prototype)
yields the value itself after normalizing empty containers: containers
all of whose content vanishes emit no pairs and are absent from the
result, and array entries appear under their decimal index keys, which is
the decoded representation of array positions. -/
theorem C1_round_trip (data : List (String × SVal))
    (hwf : wfVal (.obj data) = true) :
    decode (encode data) = .ok (.coll false (normalizeObj data)) := by
  rw [wfVal_obj, Bool.and_eq_true] at hwf
  show decodeFrom (.coll false []) (encode data) = _
  rw [decodeFrom_eq_insertAll, encode_parse data hwf.2]
  have h := insertAll_pathObj data (fun e _ => insertsGroup_all e.2) []
    hwf.2 hwf.1 (fun e _ => rfl)
  simpa using h

/-- Witness for C1 (amended): the nested mixed example from the
documentation. -/
theorem C1_round_trip_witness :
    wfVal (.obj [("address", .obj [("street", .str "s"),
        ("tags", .arr [.str "foo", .str "bar"])])]) = true ∧
    decode (encode [("address", .obj [("street", .str "s"),
        ("tags", .arr [.str "foo", .str "bar"])])]) =
      .ok (.coll false (normalizeObj [("address", .obj [("street", .str "s"),
        ("tags", .arr [.str "foo", .str "bar"])])])) :=
  ⟨rfl, C1_round_trip _ rfl⟩

end FormDataCodec
